import Mathlib

/-!
Verification development for the HMSC-HPC Gibbs-sampler core
(`src/hmsc/gibbs_sampler.py`, `src/hmsc/updaters/updateZ.py`,
`src/hmsc/updaters/updateEta.py`, `src/hmsc/utils/jsonutils.py`).

Real numbers of the floating-point source are embedded as exact rationals
`ℚ`.  Every random draw of the source is made explicit: a standard-normal
draw becomes a rational "noise" argument, a truncated-normal library call
becomes an abstract per-entry sampling oracle, and the numeric primitives
`sqrt`, `tanh`, `sinh`, `log` (which have no exact rational counterpart)
are passed in as function arguments.  With those inputs fixed, every
definition below is a computable function that mirrors the corresponding
Python statement for statement.
-/

namespace Hmsc

/-! ## Sampling loop (`GibbsSampler.sampling_routine`, gibbs_sampler.py lines 87-184)

The body of the `for n in tf.range(step_num)` loop applies the chain of
parameter updaters to the mutable `params` dictionary; we abstract one full
iteration body as a step function `step : α → α` on an arbitrary state type
(covering every tracked field at once).  The accumulator writes
(lines 145-165) are recorded as a list of `(samInd, state)` pairs, in write
order; all `TensorArray`s are written at the same `samInd` with the same
`params`, so one abstract state stands for all tracked fields. -/

/-- Condition of gibbs_sampler.py line 149:
`(n >= sample_burnin) & ((n - sample_burnin + 1) % sample_thining == 0)`.
`n - sample_burnin + 1` is computed on integers; under the guard
`sample_burnin ≤ n` it coincides with the ℕ expression `n + 1 - B`. -/
def saveCond (B T n : ℕ) : Prop := B ≤ n ∧ (n - B + 1) % T = 0

instance (B T n : ℕ) : Decidable (saveCond B T n) := by
  unfold saveCond; infer_instance

/-- `samInd` of gibbs_sampler.py line 145: `(n - sample_burnin + 1) / sample_thining - 1`
(float division followed by an int cast; on the save branch the division is
exact, so ℕ division agrees). -/
def samInd (B T n : ℕ) : ℕ := (n - B + 1) / T - 1

/-- One iteration of the loop body of gibbs_sampler.py lines 89-165, acting on
the pair (current params, list of accumulator writes so far). -/
def loopBody (step : α → α) (B T : ℕ) (acc : α × List (ℕ × α)) (n : ℕ) :
    α × List (ℕ × α) :=
  let st := step acc.1
  (st, if saveCond B T n then acc.2 ++ [(samInd B T n, st)] else acc.2)

/-- `sampling_routine`: `step_num = sample_burnin + num_samples * sample_thining`
(line 87) iterations of the loop body, starting from the initial parameter
state; returns the final state and the list of accumulator writes. -/
def samplingRoutine (step : α → α) (B N T : ℕ) (init : α) :
    α × List (ℕ × α) :=
  (List.range (B + N * T)).foldl (loopBody step B T) (init, [])

/-! ## Argument order of the `updateEta` call (gibbs_sampler.py line 132,
updateEta.py lines 9 and 28-38)

`updateEta` receives Python dictionaries and reads them by string key; we
model the dictionary prelude of `updateEta` over association lists with an
arbitrary value type, recording which key is looked up in which mapping and
which missing key raises `KeyError`. -/

/-- A Python dict access `d[k]`: the value when the key is present,
`KeyError k` otherwise. -/
def dictGet (d : List (String × α)) (k : String) : Except String α :=
  match d.lookup k with
  | some v => .ok v
  | none => .error k

/-- The values read by the prelude of `updateEta` (updateEta.py lines 28-38),
in source order. -/
structure EtaPreludeVals (α : Type) where
  vZ : α
  vBeta : α
  vSigma : α
  vLambda : α
  vEta : α
  vAlpha : α
  vPi : α
  vX : α
  vNy : α
  vNr : α
  vNp : α
deriving DecidableEq

/-- updateEta.py lines 28-38: the sequence of dictionary reads performed by
`updateEta(params, data, modelDims, rLHyperparams)` before any computation:
`Z, Beta, sigma, Lambda, Eta, Alpha` from `params`, then `Pi, X` from `data`,
then `ny, nr, np` from `modelDims`.  Evaluation stops at the first missing
key, as Python's `KeyError` would. -/
def updateEtaPrelude (params data modelDims : List (String × α)) :
    Except String (EtaPreludeVals α) := do
  let vZ ← dictGet params "Z"
  let vBeta ← dictGet params "Beta"
  let vSigma ← dictGet params "sigma"
  let vLambda ← dictGet params "Lambda"
  let vEta ← dictGet params "Eta"
  let vAlpha ← dictGet params "Alpha"
  let vPi ← dictGet data "Pi"
  let vX ← dictGet data "X"
  let vNy ← dictGet modelDims "ny"
  let vNr ← dictGet modelDims "nr"
  let vNp ← dictGet modelDims "np"
  return ⟨vZ, vBeta, vSigma, vLambda, vEta, vAlpha, vPi, vX, vNy, vNr, vNp⟩

/-- gibbs_sampler.py line 132:
`updateEta(params, self.modelDims, self.modelData, self.rLHyperparams)` -
the sampling loop passes the ModelDimensions mapping as the second positional
argument and the ModelData mapping as the third, so they are bound to
`updateEta`'s parameters `data` and `modelDims` respectively. -/
def loopCallUpdateEtaPrelude (params modelDims modelData : List (String × α)) :
    Except String (EtaPreludeVals α) :=
  updateEtaPrelude params modelDims modelData

/-! ## Configuration surface of `sampling_routine` (gibbs_sampler.py lines 36-49)
and the options of `updateZ` (updateZ.py lines 12-14). -/

/-- The three truncated-normal sampling libraries selectable in
`calculate_z_probit` (updateZ.py lines 111-124). -/
inductive Backend where
  | tfd
  | tf
  | scipy
deriving DecidableEq

/-- The keyword options of `updateZ` (updateZ.py lines 12-14), with their
declared default values `poisson_preupdate_z=True`,
`poisson_marginalize_z=False`, `truncated_normal_library="tf"`. -/
structure UpdateZOpts where
  poisson_preupdate_z : Bool
  poisson_marginalize_z : Bool
  truncated_normal_library : Backend
deriving DecidableEq

/-- The defaults of `updateZ`'s keyword options (updateZ.py lines 13-14). -/
def updateZDefaults : UpdateZOpts := ⟨true, false, Backend.tf⟩

/-- The keyword parameters of `sampling_routine` (gibbs_sampler.py lines
37-48) and their declared defaults. -/
structure SamplingConfig where
  num_samples : ℕ
  sample_burnin : ℕ
  sample_thining : ℕ
  verbose : ℕ
  truncated_normal_library : Backend
  flag_save_eta : Bool
  print_retrace_flag : Bool
  print_debug_flag : Bool
  rng_seed : Option ℤ
deriving DecidableEq

/-- The default configuration of `sampling_routine` (gibbs_sampler.py lines
40-48); the declared default of `truncated_normal_library` is `"scipy"`. -/
def samplingDefaults : SamplingConfig :=
  ⟨1, 0, 1, 1, Backend.scipy, true, true, false, none⟩

/-- gibbs_sampler.py line 100: the in-loop call
`updateZ(params, self.modelData, self.rLHyperparams)` passes no keyword
options at all, so every iteration of the loop runs `updateZ` with
`updateZ`'s own declared defaults, whatever the routine's configuration. -/
def loopUpdateZOpts (_cfg : SamplingConfig) : UpdateZOpts :=
  updateZDefaults

/-- gibbs_sampler.py lines 68-69: the single pre-loop initialization call
passes `poisson_preupdate_z=False, poisson_marginalize_z=False` and leaves
the truncated-normal library at `updateZ`'s default. -/
def initUpdateZOpts (_cfg : SamplingConfig) : UpdateZOpts :=
  ⟨false, false, Backend.tf⟩

/-! ## Latent-response augmentor (`updateZ`, updateZ.py)

A response matrix entry is `Option ℚ`: `none` is the float NaN marking an
unobserved entry (`Yo = logical_not(is_nan(Y))`, line 59).  A gathered
column block is addressed through an index map `inds : Fin k → Fin ns`
(`tf.gather(·, inds, axis=-1)`). -/

section ZUpdater

variable {ny ns nc nr : ℕ}

/-- Row-major flattening `reshape([ny*k])` of an `ny × k` matrix index. -/
def flatIdx {k : ℕ} (i : Fin ny) (t : Fin k) : Fin (ny * k) :=
  ⟨i * k + t, by
    calc (i : ℕ) * k + t < i * k + k := by omega
    _ = (i + 1) * k := by ring
    _ ≤ ny * k := Nat.mul_le_mul_right k i.isLt⟩

/-- Row of a row-major flat index. -/
def flatRow {k : ℕ} (x : Fin (ny * k)) : Fin ny :=
  ⟨x / k, by
    have hk : 0 < k := by
      rcases Nat.eq_zero_or_pos k with h | h
      · exact absurd x.isLt (by simp [h])
      · exact h
    exact (Nat.div_lt_iff_lt_mul hk).mpr x.isLt⟩

/-- Column of a row-major flat index. -/
def flatCol {k : ℕ} (x : Fin (ny * k)) : Fin k :=
  ⟨x % k, by
    have hk : 0 < k := by
      rcases Nat.eq_zero_or_pos k with h | h
      · exact absurd x.isLt (by simp [h])
      · exact h
    exact Nat.mod_lt _ hk⟩

/-- `calculate_z_normal` (updateZ.py lines 87-96):
`Z = where(Yo, Y, L + sigma * normal)`, `iD = cast(Yo) * sigma**-2`.
`eps` is the standard-normal draw `tfr.normal([ny, k])`. -/
def calculate_z_normal {k : ℕ} (inds : Fin k → Fin ns)
    (Y : Fin ny → Fin ns → Option ℚ) (L : Fin ny → Fin ns → ℚ)
    (sigma : Fin ns → ℚ) (eps : Fin ny → Fin k → ℚ) :
    (Fin ny → Fin k → ℚ) × (Fin ny → Fin k → ℚ) :=
  (fun i t =>
    match Y i (inds t) with
    | some y => y
    | none => L i (inds t) + sigma (inds t) * eps i t,
   fun i t => (if (Y i (inds t)).isSome then (1 : ℚ) else 0) * sigma (inds t) ^ (-2 : ℤ))

/-- The parameters of one truncated-normal draw: the location-scale law
Normal(loc, scale) truncated to `[low, high]`. -/
structure TruncLaw where
  loc : ℚ
  scale : ℚ
  low : ℚ
  high : ℚ
deriving DecidableEq

/-- `INFTY = 1e+3` (updateZ.py line 101): the finite stand-in the probit
augmentor uses for an unbounded truncation endpoint. -/
def INFTY : ℚ := 1000

/-- updateZ.py line 107: `low = where((Y == 0) | Ym, -INFTY, zeros)`. -/
def probitLow (y : Option ℚ) : ℚ :=
  if y = some 0 ∨ y = none then -INFTY else 0

/-- updateZ.py line 108: `high = where((Y == 1) | Ym, INFTY, zeros)`. -/
def probitHigh (y : Option ℚ) : ℚ :=
  if y = some 1 ∨ y = none then INFTY else 0

/-- The `tfd` backend (updateZ.py line 112): per-entry law passed to
`tfd.TruncatedNormal(loc=LP, scale=sigma, low=low, high=high)`. -/
def probitLawTfd {k : ℕ} (inds : Fin k → Fin ns)
    (Y : Fin ny → Fin ns → Option ℚ) (L : Fin ny → Fin ns → ℚ)
    (sigma : Fin ns → ℚ) (i : Fin ny) (t : Fin k) : TruncLaw :=
  ⟨L i (inds t), sigma (inds t), probitLow (Y i (inds t)), probitHigh (Y i (inds t))⟩

/-- `tf.reshape(LP, [ny*k])` (updateZ.py lines 117-118). -/
def probitMeansFlat {k : ℕ} (inds : Fin k → Fin ns)
    (L : Fin ny → Fin ns → ℚ) (x : Fin (ny * k)) : ℚ :=
  L (flatRow x) (inds (flatCol x))

/-- `tf.tile(sigma, [ny])` (updateZ.py line 117): entry `x` holds `sigma[x % k]`. -/
def probitStdFlat {k : ℕ} (inds : Fin k → Fin ns)
    (sigma : Fin ns → ℚ) (x : Fin (ny * k)) : ℚ :=
  sigma (inds (flatCol x))

/-- `tf.reshape(low, [ny*k])`. -/
def probitLowFlat {k : ℕ} (inds : Fin k → Fin ns)
    (Y : Fin ny → Fin ns → Option ℚ) (x : Fin (ny * k)) : ℚ :=
  probitLow (Y (flatRow x) (inds (flatCol x)))

/-- `tf.reshape(high, [ny*k])`. -/
def probitHighFlat {k : ℕ} (inds : Fin k → Fin ns)
    (Y : Fin ny → Fin ns → Option ℚ) (x : Fin (ny * k)) : ℚ :=
  probitHigh (Y (flatRow x) (inds (flatCol x)))

/-- The `tf` backend (updateZ.py lines 113-120):
`parameterized_truncated_normal` over the flattened arrays, reshaped back to
`[ny, k]`; entry `(i,t)` reads flat position `i*k + t` of each parameter
array. -/
def probitLawTf {k : ℕ} (inds : Fin k → Fin ns)
    (Y : Fin ny → Fin ns → Option ℚ) (L : Fin ny → Fin ns → ℚ)
    (sigma : Fin ns → ℚ) (i : Fin ny) (t : Fin k) : TruncLaw :=
  ⟨probitMeansFlat inds L (flatIdx i t), probitStdFlat inds sigma (flatIdx i t),
   probitLowFlat inds Y (flatIdx i t), probitHighFlat inds Y (flatIdx i t)⟩

/-- The `scipy` backend (updateZ.py lines 121-124): standardized bounds
`a = (low - loc)/scale`, `b = (high - loc)/scale`; `truncnorm.rvs(a, b, loc,
scale)` denotes the Normal(loc, scale) law truncated to
`[loc + a*scale, loc + b*scale]`. -/
def probitLawScipy {k : ℕ} (inds : Fin k → Fin ns)
    (Y : Fin ny → Fin ns → Option ℚ) (L : Fin ny → Fin ns → ℚ)
    (sigma : Fin ns → ℚ) (i : Fin ny) (t : Fin k) : TruncLaw :=
  let loc := probitMeansFlat inds L (flatIdx i t)
  let scale := probitStdFlat inds sigma (flatIdx i t)
  let a := (probitLowFlat inds Y (flatIdx i t) - loc) / scale
  let b := (probitHighFlat inds Y (flatIdx i t) - loc) / scale
  ⟨loc, scale, loc + a * scale, loc + b * scale⟩

/-- Per-entry law of the selected truncated-normal backend. -/
def probitLaw (backend : Backend) {k : ℕ} (inds : Fin k → Fin ns)
    (Y : Fin ny → Fin ns → Option ℚ) (L : Fin ny → Fin ns → ℚ)
    (sigma : Fin ns → ℚ) : Fin ny → Fin k → TruncLaw :=
  match backend with
  | .tfd => probitLawTfd inds Y L sigma
  | .tf => probitLawTf inds Y L sigma
  | .scipy => probitLawScipy inds Y L sigma

/-- `calculate_z_probit` (updateZ.py lines 99-128): Albert-Chib augmentation.
`tnSample` is the per-entry truncated-normal sampling oracle: given the same
law parameters at the same entry, the three library backends are modelled as
drawing the same value (this is the formal rendering of "equal in law").
`iD = cast(Yo) * sigma**-2` (line 126). -/
def calculate_z_probit (backend : Backend) {k : ℕ} (inds : Fin k → Fin ns)
    (Y : Fin ny → Fin ns → Option ℚ) (L : Fin ny → Fin ns → ℚ)
    (sigma : Fin ns → ℚ) (tnSample : Fin ny → Fin k → TruncLaw → ℚ) :
    (Fin ny → Fin k → ℚ) × (Fin ny → Fin k → ℚ) :=
  (fun i t => tnSample i t (probitLaw backend inds Y L sigma i t),
   fun i t => (if (Y i (inds t)).isSome then (1 : ℚ) else 0) * sigma (inds t) ^ (-2 : ℤ))

/-- `sample_z` (updateZ.py lines 159-163): the exact Normal full conditional
of `Z` given the Pólya-Gamma weight `omega`;
`sigmaZ2 = (sigma**-2 + omega)**-1`,
`mu = sigmaZ2 * ((Y - r)/2 + omega*log(r) + sigma**-2 * L)`,
`Z = normal(mu, sqrt(sigmaZ2))`.  `lnr` is the float constant `np.log(r)`;
`sqrtQ` the square-root primitive; `eps` the standard-normal draw. -/
def sample_z {k : ℕ} (Yq L : Fin ny → Fin k → ℚ) (sigma : Fin k → ℚ)
    (omega : Fin ny → Fin k → ℚ) (r lnr : ℚ) (sqrtQ : ℚ → ℚ)
    (eps : Fin ny → Fin k → ℚ) : Fin ny → Fin k → ℚ :=
  fun i t =>
    let sigmaZ2 := (sigma t ^ (-2 : ℤ) + omega i t)⁻¹
    sigmaZ2 * ((Yq i t - r) / 2 + omega i t * lnr + sigma t ^ (-2 : ℤ) * L i t)
      + sqrtQ sigmaZ2 * eps i t

/-- `draw_polya_gamma` (updateZ.py lines 166-181): the large-shape normal
approximation to the Pólya-Gamma(h, z) law, the only implemented branch;
`omega = abs(m + s * normal)` with the moment formulas of the source,
branching on `z == 0`.  `tanhQ`, `sinhQ`, `sqrtQ` are the numeric
primitives; `eps` the standard-normal draw. -/
def draw_polya_gamma {k : ℕ} (sqrtQ tanhQ sinhQ : ℚ → ℚ)
    (h z : Fin ny → Fin k → ℚ) (eps : Fin ny → Fin k → ℚ) :
    Fin ny → Fin k → ℚ :=
  fun i t =>
    let m0 := 0.25 * h i t
    let s0 := sqrtQ (h i t / 24)
    let x1 := tanhQ (0.5 * z i t)
    let m1 := 0.5 * h i t * x1 / z i t
    let s1 := sqrtQ (0.25 * h i t * (sinhQ (z i t) - z i t) * (1 - x1 ^ 2) / z i t ^ 3)
    let m := if z i t = 0 then m0 else m1
    let s := if z i t = 0 then s0 else s1
    |m + s * eps i t|

/-- `calculate_z_poisson` (updateZ.py lines 131-156): lognormal-Poisson with
Pólya-Gamma augmentation and negative-binomial majorizer of fixed shape
`r = 1000`.  `nanVal` stands for the float NaN stored at unobserved entries
(the source masks it out of `iD` by multiplying with `cast(Yo)`).
Returns `(Z, iD, poisson_omega)`. -/
def calculate_z_poisson {k : ℕ} (inds : Fin k → Fin ns)
    (Y : Fin ny → Fin ns → Option ℚ) (L : Fin ny → Fin ns → ℚ)
    (sigma : Fin ns → ℚ) (ZPrev : Fin ny → Fin ns → ℚ)
    (omegaPrev : Fin ny → Fin k → ℚ)
    (preupd marg : Bool) (lnr nanVal : ℚ) (sqrtQ tanhQ sinhQ : ℚ → ℚ)
    (epsZ1 epsPG epsZ2 : Fin ny → Fin k → ℚ) :
    (Fin ny → Fin k → ℚ) × (Fin ny → Fin k → ℚ) × (Fin ny → Fin k → ℚ) :=
  let r : ℚ := 1000
  let Yq : Fin ny → Fin k → ℚ := fun i t => (Y i (inds t)).getD nanVal
  let Yo : Fin ny → Fin k → Bool := fun i t => (Y i (inds t)).isSome
  let Lg : Fin ny → Fin k → ℚ := fun i t => L i (inds t)
  let sg : Fin k → ℚ := fun t => sigma (inds t)
  let Z1 : Fin ny → Fin k → ℚ :=
    if preupd then sample_z Yq Lg sg omegaPrev r lnr sqrtQ epsZ1
    else fun i t => ZPrev i (inds t)
  let omega := draw_polya_gamma sqrtQ tanhQ sinhQ
    (fun i t => Yq i t + r) (fun i t => Z1 i t - lnr) epsPG
  if marg then
    (fun i t => (Yq i t - r) / (2 * omega i t) + lnr,
     fun i t => (if Yo i t then (1 : ℚ) else 0) * (sg t ^ 2 + (omega i t)⁻¹)⁻¹,
     omega)
  else
    (sample_z Yq Lg sg omega r lnr sqrtQ epsZ2,
     fun i t => (if Yo i t then (1 : ℚ) else 0) * sg t ^ (-2 : ℤ),
     omega)

/-- Per-level data consumed by `updateZ` (the `r`-th entries of
`params["Eta"]`, `params["Lambda"]`, `rLHyperparams[r]`, and the `r`-th
column of `data["Pi"]`).  `Lambda` is dynamically 2-D (when `xDim == 0`) or
3-D (when `xDim > 0`); the two shapes are carried in separate fields, the
branch on `xDim` selecting which one is read, exactly as the untyped source
array is read. -/
structure ZLevel (ny ns : ℕ) where
  npr : ℕ
  nf : ℕ
  xDim : ℕ
  Eta : Fin npr → Fin nf → ℚ
  Lambda2 : Fin nf → Fin ns → ℚ
  xMat : Fin npr → Fin xDim → ℚ
  Lambda3 : Fin nf → Fin ns → Fin xDim → ℚ
  piCol : Fin ny → Fin npr

/-- `params["Xeff"]` (updateZ.py line 40): either an `ny × nc` design or the
per-species-varying `ns × ny × nc` form (branch on `X.ndim`, lines 48-51). -/
inductive XDesign (ny nc ns : ℕ) where
  | x2 (X : Fin ny → Fin nc → ℚ)
  | x3 (X : Fin ns → Fin ny → Fin nc → ℚ)

/-- updateZ.py lines 48-51: `LFix = X @ Beta` for 2-D `Xeff`, or the einsum
`"jik,kj->ij"` for the 3-D form. -/
def zLFix (X : XDesign ny nc ns) (Beta : Fin nc → Fin ns → ℚ) :
    Fin ny → Fin ns → ℚ :=
  match X with
  | .x2 X2 => fun i j => ∑ c, X2 i c * Beta c j
  | .x3 X3 => fun i j => ∑ c, X3 j i c * Beta c j

/-- updateZ.py lines 53-57: one level's unit-expanded random contribution;
`gather(Eta @ Lambda, Pi[:, r])` for `xDim == 0`, else the gathered einsum
`"ih,ik,hjk->ij"` with `xMat`. -/
def zLRan (lv : ZLevel ny ns) : Fin ny → Fin ns → ℚ :=
  if lv.xDim = 0 then
    fun i j => ∑ h, lv.Eta (lv.piCol i) h * lv.Lambda2 h j
  else
    fun i j => ∑ h, ∑ c, lv.Eta (lv.piCol i) h * lv.xMat (lv.piCol i) c * lv.Lambda3 h j c

/-- updateZ.py line 58: the full linear predictor
`L = LFix + sum(LRanLevelList)`. -/
def zLinPred (X : XDesign ny nc ns) (Beta : Fin nc → Fin ns → ℚ)
    (levels : Fin nr → ZLevel ny ns) : Fin ny → Fin ns → ℚ :=
  fun i j => zLFix X Beta i j + ∑ r, zLRan (levels r) i j

/-- updateZ.py lines 61-63: the list of column indices of one family code,
`np.nonzero(distr[:, 0] == c)[0]` (ascending order). -/
def indCol (distr : Fin ns → ℕ) (c : ℕ) : List (Fin ns) :=
  (List.finRange ns).filter (fun j => distr j = c)

/-- `tf.concat([ZNormal, ZProbit, ZPoisson], -1)` (updateZ.py lines 79-81),
addressed by positions of the concatenated index list
`indColNormal ++ indColProbit ++ indColPoisson`. -/
def stack3 (l1 l2 l3 : List (Fin ns))
    (A : Fin ny → Fin l1.length → ℚ) (B : Fin ny → Fin l2.length → ℚ)
    (C : Fin ny → Fin l3.length → ℚ)
    (i : Fin ny) (p : Fin (l1 ++ l2 ++ l3).length) : ℚ :=
  if h1 : (p : ℕ) < l1.length then A i ⟨p, h1⟩
  else if h2 : (p : ℕ) < l1.length + l2.length then
    B i ⟨p - l1.length, by omega⟩
  else
    C i ⟨p - l1.length - l2.length, by
      have hp := p.isLt
      simp only [List.length_append] at hp
      omega⟩

/-- `np.argsort` over a list of column indices: the list of positions of
`v`, ordered by the value found there (`tf.argsort(indColStack)`,
updateZ.py lines 82-83).  Rendered with insertion sort, which is stable,
matching `np.argsort` on the distinct values it is applied to. -/
def argsortIdx (v : List (Fin ns)) : List (Fin v.length) :=
  List.insertionSort (fun a b => v.get a ≤ v.get b) (List.finRange v.length)

theorem argsortIdx_length (v : List (Fin ns)) :
    (argsortIdx v).length = v.length := by
  simp [argsortIdx, List.length_insertionSort, List.length_finRange]

/-- `tf.gather(·, tf.argsort(indColStack), axis=-1)` (updateZ.py lines
82-83): output column `c` reads the stacked column at position
`argsort[c]`. -/
def gatherSort (v : List (Fin ns)) (M : Fin ny → Fin v.length → ℚ) :
    Fin ny → Fin v.length → ℚ :=
  fun i c => M i ((argsortIdx v).get (Fin.cast (argsortIdx_length v).symm c))

/-- The explicit randomness and numeric primitives consumed by one
invocation of `updateZ`: standard-normal draws for each family block, the
truncated-normal sampling oracle of the probit block, the `sqrt`, `tanh`,
`sinh` primitives, the float constant `np.log(1000)`, and the placeholder
for NaN at unobserved entries. -/
structure ZOracle (ny : ℕ) {ns : ℕ} (distr : Fin ns → ℕ) where
  epsNormal : Fin ny → Fin (indCol distr 1).length → ℚ
  tnSample : Fin ny → Fin (indCol distr 2).length → TruncLaw → ℚ
  epsZ1 : Fin ny → Fin (indCol distr 3).length → ℚ
  epsPG : Fin ny → Fin (indCol distr 3).length → ℚ
  epsZ2 : Fin ny → Fin (indCol distr 3).length → ℚ
  sqrtQ : ℚ → ℚ
  tanhQ : ℚ → ℚ
  sinhQ : ℚ → ℚ
  lnr : ℚ
  nanVal : ℚ

/-- The fields of `params` read by `updateZ` (updateZ.py lines 35-40):
`Z`, `Beta`, `Eta`/`Lambda` (bundled per level), `sigma`, `Xeff`, and the
Pólya-Gamma weight `poisson_omega` of the previous iteration (stored
unrecombined at the Poisson block's width). -/
structure ZParams (ny ns nc nr : ℕ) (distr : Fin ns → ℕ) where
  Z : Fin ny → Fin ns → ℚ
  Beta : Fin nc → Fin ns → ℚ
  levels : Fin nr → ZLevel ny ns
  sigma : Fin ns → ℚ
  Xeff : XDesign ny nc ns
  poisson_omega : Fin ny → Fin (indCol distr 3).length → ℚ

/-- The concatenated column-index list
`indColStack = concat([indColNormal, indColProbit, indColPoisson])`
(updateZ.py line 81). -/
def indColStack (distr : Fin ns → ℕ) : List (Fin ns) :=
  indCol distr 1 ++ indCol distr 2 ++ indCol distr 3

/-- `updateZ` (updateZ.py lines 12-84): computes the linear predictor,
partitions the species columns by family code, runs the three family
augmentors, and recombines the blocks by the inverse permutation
`argsort(indColStack)`.  Returns `(ZNew, iDNew, poisson_omega)`. -/
def updateZ {distr : Fin ns → ℕ} (params : ZParams ny ns nc nr distr)
    (Y : Fin ny → Fin ns → Option ℚ) (opts : UpdateZOpts)
    (orc : ZOracle ny distr) :
    (Fin ny → Fin (indColStack distr).length → ℚ) ×
      (Fin ny → Fin (indColStack distr).length → ℚ) ×
      (Fin ny → Fin (indCol distr 3).length → ℚ) :=
  let L := zLinPred params.Xeff params.Beta params.levels
  let inds1 := (indCol distr 1).get
  let inds2 := (indCol distr 2).get
  let inds3 := (indCol distr 3).get
  let ZN := calculate_z_normal inds1 Y L params.sigma orc.epsNormal
  let ZP := calculate_z_probit opts.truncated_normal_library inds2 Y L
    params.sigma orc.tnSample
  let ZC := calculate_z_poisson inds3 Y L params.sigma params.Z
    params.poisson_omega opts.poisson_preupdate_z opts.poisson_marginalize_z
    orc.lnr orc.nanVal orc.sqrtQ orc.tanhQ orc.sinhQ
    orc.epsZ1 orc.epsPG orc.epsZ2
  (gatherSort (indColStack distr) (stack3 _ _ _ ZN.1 ZP.1 ZC.1),
   gatherSort (indColStack distr) (stack3 _ _ _ ZN.2 ZP.2 ZC.2.1),
   ZC.2.2)

/-- The per-entry truncated-normal law of the probit block exactly as
`updateZ` constructs it: column map `indColProbit`, linear predictor
`zLinPred`, residual scale `sigma`, backend `b`. -/
def probitEntryLaw {distr : Fin ns → ℕ} (params : ZParams ny ns nc nr distr)
    (Y : Fin ny → Fin ns → Option ℚ) (b : Backend)
    (i : Fin ny) (t : Fin (indCol distr 2).length) : TruncLaw :=
  probitLaw b ((indCol distr 2).get) Y
    (zLinPred params.Xeff params.Beta params.levels) params.sigma i t

end ZUpdater

/-! ## Dense linear algebra used by the latent-factor sampler

`tfla.cholesky` and `tfla.triangular_solve` are embedded as the textbook
Cholesky factorization and forward/backward substitution; the square-root
primitive `sqrtQ` (exact on the values encountered) is an explicit
argument. -/

/-- `tfla.cholesky`: the lower-triangular factor, computed by the standard
recursion on the leading 1×1 block and its Schur complement. -/
def cholesky (sqrtQ : ℚ → ℚ) : (n : ℕ) → (Fin n → Fin n → ℚ) → Fin n → Fin n → ℚ
  | 0, _ => fun i => i.elim0
  | n + 1, A =>
    let l0 := sqrtQ (A 0 0)
    let c : Fin n → ℚ := fun i => A i.succ 0 / l0
    let Sc : Fin n → Fin n → ℚ := fun i j => A i.succ j.succ - c i * c j
    let L := cholesky sqrtQ n Sc
    fun i j =>
      Fin.cases (Fin.cases l0 (fun _ => 0) j)
        (fun i2 => Fin.cases (c i2) (fun j2 => L i2 j2) j) i

/-- `tfla.triangular_solve(L, b)` with lower-triangular `L`: forward
substitution. -/
def fwdSolve : (n : ℕ) → (Fin n → Fin n → ℚ) → (Fin n → ℚ) → Fin n → ℚ
  | 0, _, _ => fun i => i.elim0
  | n + 1, L, b =>
    let x0 := b 0 / L 0 0
    let xs := fwdSolve n (fun i j => L i.succ j.succ) (fun i => b i.succ - L i.succ 0 * x0)
    fun i => Fin.cases x0 xs i

/-- `tfla.triangular_solve(L, b, adjoint=True)`: backward substitution
solving `Lᵀ x = b`. -/
def bwdSolve : (n : ℕ) → (Fin n → Fin n → ℚ) → (Fin n → ℚ) → Fin n → ℚ
  | 0, _, _ => fun i => i.elim0
  | n + 1, L, b =>
    let xl := b (Fin.last n) / L (Fin.last n) (Fin.last n)
    let xs := bwdSolve n (fun i j => L i.castSucc j.castSucc)
      (fun i => b i.castSucc - L (Fin.last n) i.castSucc * xl)
    fun i => Fin.lastCases xl xs i

/-! ## Latent-factor sampler (`updateEta`, updateEta.py) -/

section EtaUpdater

variable {ny ns nc nr : ℕ}

/-- Per-level data consumed by `updateEta`: the `r`-th entries of
`params["Lambda"]`, `params["Eta"]`, `params["Alpha"]`, the `r`-th column
of `data["Pi"]`, and the level's hyperparameters `sDim`, `spatialMethod`,
`iWg` from `rLHyperparams[r]`.  `Alpha` is the per-factor spatial-range
index (the source's `[nf, 1]` integer tensor, squeezed where used);
`iWg` the range-indexed table of covariance-precision matrices. -/
structure RLevel (ny ns : ℕ) where
  npr : ℕ
  nf : ℕ
  Lambda : Fin nf → Fin ns → ℚ
  Eta : Fin npr → Fin nf → ℚ
  Alpha : Fin nf → ℕ
  piCol : Fin ny → Fin npr
  sDim : ℕ
  spatialMethod : String
  iWg : ℕ → Fin npr → Fin npr → ℚ

/-- updateEta.py line 40: `iD = tf.ones_like(Z) * sigma**-2` - the updater
recomputes a local precision matrix from `sigma` alone (it does not read
`params["iD"]`). -/
def etaID (sigma : Fin ns → ℚ) : Fin ny → Fin ns → ℚ :=
  fun _ j => sigma j ^ (-2 : ℤ)

/-- updateEta.py line 41: `LFix = tf.matmul(X, Beta)`. -/
def etaLFix (X : Fin ny → Fin nc → ℚ) (Beta : Fin nc → Fin ns → ℚ) :
    Fin ny → Fin ns → ℚ :=
  fun i j => ∑ c, X i c * Beta c j

/-- updateEta.py lines 44 and 65: a level's unit-expanded contribution
`tf.matmul(tf.gather(Eta, Pi[:, r]), Lambda)` computed from a given score
matrix. -/
def lranOf (lv : RLevel ny ns) (Eta : Fin lv.npr → Fin lv.nf → ℚ) :
    Fin ny → Fin ns → ℚ :=
  fun i j => ∑ h, Eta (lv.piCol i) h * lv.Lambda h j

/-- updateEta.py line 50: the residual
`S = Z - LFix - sum(LRanLevelList[rInd] for rInd in setdiff(range(nr), r))`,
read from the current (mutable) list of level contributions. -/
def residS (Z LFix : Fin ny → Fin ns → ℚ)
    (lran : Fin nr → Fin ny → Fin ns → ℚ) (r : Fin nr) :
    Fin ny → Fin ns → ℚ :=
  fun i j => Z i j - LFix i j - ∑ r2, if r2 = r then 0 else lran r2 i j

/-- updateEta.py line 51: the per-unit precision contribution
`scatter_nd(Pi[:,r], einsum("hj,ij,kj->ihk", Lambda, iD, Lambda), [np,nf,nf])`:
`Λᵀ·diag(iD)·Λ` scatter-summed over the observations of each unit. -/
def lamInvSigLamOf (iD : Fin ny → Fin ns → ℚ) (lv : RLevel ny ns) :
    Fin lv.npr → Fin lv.nf → Fin lv.nf → ℚ :=
  fun p h k => ∑ i, if lv.piCol i = p then ∑ j, lv.Lambda h j * iD i j * lv.Lambda k j else 0

/-- updateEta.py line 52: the per-unit mean contribution
`scatter_nd(Pi[:,r], matmul(iD * S, Lambda, transpose_b=True), [np,nf])`:
`Λ·(iD⊙S)ᵀ` scatter-summed over the observations of each unit. -/
def mu0vOf (iD S : Fin ny → Fin ns → ℚ) (lv : RLevel ny ns) :
    Fin lv.npr → Fin lv.nf → ℚ :=
  fun p h => ∑ i, if lv.piCol i = p then ∑ j, iD i j * S i j * lv.Lambda h j else 0

/-- `modelNonSpatial` (updateEta.py lines 93-98): independent per-unit
solves; `iV = eye(nf) + LamInvSigLam`, one Cholesky per unit, two
triangular solves, structured noise through the same factor.  `eps` is the
standard-normal draw `tfr.normal([np, nf, 1])`, indexed row-major. -/
def modelNonSpatial (npr nf : ℕ)
    (LamInvSigLam : Fin npr → Fin nf → Fin nf → ℚ) (mu0 : Fin npr → Fin nf → ℚ)
    (sqrtQ : ℚ → ℚ) (eps : ℕ → ℚ) : Fin npr → Fin nf → ℚ :=
  fun p =>
    let iV : Fin nf → Fin nf → ℚ :=
      fun h k => (if h = k then 1 else 0) + LamInvSigLam p h k
    let LiV := cholesky sqrtQ nf iV
    let mu1 := fwdSolve nf LiV (mu0 p)
    bwdSolve nf LiV (fun h => mu1 h + eps (p * nf + h))

/-- `modelSpatialFull` (updateEta.py lines 72-90): one joint precision of
size `(nf*np)²` in factor-major layout - the factor-block-diagonal spatial
prior `iWs` (gather of `iWg` by each factor's range index, lines 73-79)
plus the unit-block-diagonal data contribution (lines 80-83) - factored
once; `mu0` enters as `reshape(transpose(mu0))` and the result is
`transpose(reshape(eta, [nf, np]))`. -/
def modelSpatialFull (npr nf : ℕ)
    (LamInvSigLam : Fin npr → Fin nf → Fin nf → ℚ) (mu0 : Fin npr → Fin nf → ℚ)
    (Alpha : Fin nf → ℕ) (iWg : ℕ → Fin npr → Fin npr → ℚ)
    (sqrtQ : ℚ → ℚ) (eps : ℕ → ℚ) : Fin npr → Fin nf → ℚ :=
  let iWs : Fin (nf * npr) → Fin (nf * npr) → ℚ := fun x y =>
    if flatRow x = flatRow y then iWg (Alpha (flatRow x)) (flatCol x) (flatCol y) else 0
  let iUEta : Fin (nf * npr) → Fin (nf * npr) → ℚ := fun x y =>
    iWs x y +
      (if flatCol x = flatCol y then LamInvSigLam (flatCol x) (flatRow x) (flatRow y) else 0)
  let LiU := cholesky sqrtQ (nf * npr) iUEta
  let mu1 := fwdSolve (nf * npr) LiU (fun x => mu0 (flatCol x) (flatRow x))
  let eta := bwdSolve (nf * npr) LiU (fun x => mu1 x + eps (x : ℕ))
  fun p h => eta (flatIdx h p)

/-- Modelled from the spec: `kron` is imported from
`hmsc/utils/tflautils.py`, which is not among the provided sources; the
spec describes the NNGP prior block as "a structured product of a
per-factor range-indexed sparse precision and an identity over factors",
i.e. a Kronecker product; the standard Kronecker product of square matrices
is used. -/
def kron {a b : ℕ} (A : Fin a → Fin a → ℚ) (B : Fin b → Fin b → ℚ) :
    Fin (a * b) → Fin (a * b) → ℚ :=
  fun x y => A (flatRow x) (flatRow y) * B (flatCol x) (flatCol y)

/-- Modelled from the spec: `scipy_cholesky` (imported from the absent
`hmsc/utils/tflautils.py`, called through `tf.numpy_function` at
updateEta.py line 129) is the "sparse-aware Cholesky" of the spec; its
mathematical content is the Cholesky factor. -/
def scipyCholesky (sqrtQ : ℚ → ℚ) (n : ℕ) (A : Fin n → Fin n → ℚ) :
    Fin n → Fin n → ℚ :=
  cholesky sqrtQ n A

/-- `tf.linalg.diag(tf.one_hot(h, nf))` (updateEta.py line 109). -/
def diagOneHot (nf : ℕ) (h : ℕ) : Fin nf → Fin nf → ℚ :=
  fun a b => if a = b ∧ (a : ℕ) = h then 1 else 0

/-- `modelSpatialNNGP` (updateEta.py lines 101-139): the joint precision is
`Σ_h kron(iWg[Alpha[h]], diag(one_hot(h)))` plus
`kron(LamInvSigLam[0,:,:], diag(column sums of the incidence matrix P))`,
factored by the external sparse Cholesky; solve and noise as in the full
case.  The matrix `fS` of lines 118-122 is computed but never used by the
source, and is reproduced here unused.  The source reads
`LamInvSigLam[0, :, :]` (unit 0's block); when `np = 0` that read would
fault in Python and the result type is empty here. -/
def modelSpatialNNGP (npr nf : ℕ)
    (LamInvSigLam : Fin npr → Fin nf → Fin nf → ℚ) (mu0 : Fin npr → Fin nf → ℚ)
    (Alpha : Fin nf → ℕ) (piCol : Fin ny → Fin npr)
    (iWg : ℕ → Fin npr → Fin npr → ℚ) (S : Fin ny → Fin ns → ℚ)
    (iSigma : Fin ns → ℚ) (sqrtQ : ℚ → ℚ) (eps : ℕ → ℚ) :
    Fin npr → Fin nf → ℚ :=
  let cm : Fin (npr * nf) → Fin (nf * npr) := Fin.cast (Nat.mul_comm npr nf)
  let iWs : Fin (npr * nf) → Fin (npr * nf) → ℚ := fun x y =>
    ∑ h, kron (iWg (Alpha h)) (diagOneHot nf (h : ℕ)) x y
  let _fS : Fin npr → Fin nf → ℚ := fun p _h =>
    ∑ j, (∑ i, if piCol i = p then S i j else 0) * iSigma j
  let counts : Fin npr → ℚ := fun p => ∑ i, if piCol i = p then 1 else 0
  let lam0 : Fin nf → Fin nf → ℚ :=
    if h0 : 0 < npr then LamInvSigLam ⟨0, h0⟩ else fun _ _ => 0
  let iUEta : Fin (npr * nf) → Fin (npr * nf) → ℚ := fun x y =>
    iWs x y + kron lam0 (fun a b => if a = b then counts a else 0) (cm x) (cm y)
  let LiU := scipyCholesky sqrtQ (npr * nf) iUEta
  let mu1 := fwdSolve (npr * nf) LiU
    (fun x => mu0 (flatCol (cm x)) (flatRow (cm x)))
  let eta := bwdSolve (npr * nf) LiU (fun x => mu1 x + eps (x : ℕ))
  fun p h => eta (Fin.cast (Nat.mul_comm nf npr) (flatIdx h p))

/-- The mutable state of the per-level sweep of updateEta.py lines 42-67:
the list `LRanLevelList` of unit-expanded contributions and the list
`EtaListNew` of new scores.  `etaNew` starts as the input scores, standing
for the source's `[None] * nr` placeholder: every index is assigned exactly
once before being read. -/
structure EtaState (ny ns : ℕ) {nr : ℕ} (levels : Fin nr → RLevel ny ns) where
  lran : Fin nr → Fin ny → Fin ns → ℚ
  etaNew : (r : Fin nr) → Fin (levels r).npr → Fin (levels r).nf → ℚ

/-- The initial sweep state (updateEta.py lines 42-44):
`LRanLevelList[r] = matmul(gather(Eta, Pi[:,r]), Lambda)` from the input
scores. -/
def etaInit (levels : Fin nr → RLevel ny ns) : EtaState ny ns levels :=
  ⟨fun r => lranOf (levels r) (levels r).Eta, fun r => (levels r).Eta⟩

/-- One step of the per-level sweep (updateEta.py lines 47-67): recompute
the residual, assemble the per-unit sufficient statistics from the locally
recomputed `iD`, dispatch on the spatial regime, and - in the non-spatial
branch only (line 65) - refresh the level's cached contribution from the
fresh draw.  `spatialMethod == "GPP"` raises `NotImplementedError`
(lines 59-60); a level with `nf == 0` keeps its input scores (line 67). -/
def etaStep (Z : Fin ny → Fin ns → ℚ) (sigma : Fin ns → ℚ)
    (LFix : Fin ny → Fin ns → ℚ) (levels : Fin nr → RLevel ny ns)
    (noise : Fin nr → ℕ → ℚ) (sqrtQ : ℚ → ℚ)
    (st : EtaState ny ns levels) (r : Fin nr) :
    Except String (EtaState ny ns levels) :=
  if 0 < (levels r).nf then
    let S := residS Z LFix st.lran r
    let lam := lamInvSigLamOf (etaID sigma) (levels r)
    let m0 := mu0vOf (etaID sigma) S (levels r)
    if 0 < (levels r).sDim then
      if (levels r).spatialMethod = "NNGP" then
        .ok ⟨st.lran, Function.update st.etaNew r
          (modelSpatialNNGP (levels r).npr (levels r).nf lam m0 (levels r).Alpha
            (levels r).piCol (levels r).iWg S (fun j => sigma j ^ (-2 : ℤ))
            sqrtQ (noise r))⟩
      else if (levels r).spatialMethod = "GPP" then
        .error "NotImplementedError"
      else
        .ok ⟨st.lran, Function.update st.etaNew r
          (modelSpatialFull (levels r).npr (levels r).nf lam m0 (levels r).Alpha
            (levels r).iWg sqrtQ (noise r))⟩
    else
      let EtaNewR := modelNonSpatial (levels r).npr (levels r).nf lam m0 sqrtQ (noise r)
      .ok ⟨Function.update st.lran r (lranOf (levels r) EtaNewR),
        Function.update st.etaNew r EtaNewR⟩
  else
    .ok ⟨st.lran, Function.update st.etaNew r (levels r).Eta⟩

/-- The sequential sweep over the given levels (the `for r, ... in
enumerate(zip(...))` loop of updateEta.py line 47), aborting at the first
raised error. -/
def etaLoop (Z : Fin ny → Fin ns → ℚ) (sigma : Fin ns → ℚ)
    (LFix : Fin ny → Fin ns → ℚ) (levels : Fin nr → RLevel ny ns)
    (noise : Fin nr → ℕ → ℚ) (sqrtQ : ℚ → ℚ) :
    List (Fin nr) → EtaState ny ns levels → Except String (EtaState ny ns levels)
  | [], st => .ok st
  | r :: rs, st =>
    match etaStep Z sigma LFix levels noise sqrtQ st r with
    | .error e => .error e
    | .ok st1 => etaLoop Z sigma LFix levels noise sqrtQ rs st1

/-- `updateEta` (updateEta.py lines 9-69): initial contributions from the
input scores, then the sequential sweep over all levels in level order;
returns `EtaListNew`. -/
def updateEta (Z : Fin ny → Fin ns → ℚ) (Beta : Fin nc → Fin ns → ℚ)
    (sigma : Fin ns → ℚ) (X : Fin ny → Fin nc → ℚ)
    (levels : Fin nr → RLevel ny ns) (noise : Fin nr → ℕ → ℚ)
    (sqrtQ : ℚ → ℚ) :
    Except String ((r : Fin nr) → Fin (levels r).npr → Fin (levels r).nf → ℚ) :=
  (etaLoop Z sigma (etaLFix X Beta) levels noise sqrtQ
    (List.finRange nr) (etaInit levels)).map EtaState.etaNew

/-- The sweep state just before level `k` is processed: the loop run on the
first `k` levels only. -/
def etaStateAt (Z : Fin ny → Fin ns → ℚ) (sigma : Fin ns → ℚ)
    (LFix : Fin ny → Fin ns → ℚ) (levels : Fin nr → RLevel ny ns)
    (noise : Fin nr → ℕ → ℚ) (sqrtQ : ℚ → ℚ) (k : ℕ) :
    Except String (EtaState ny ns levels) :=
  etaLoop Z sigma LFix levels noise sqrtQ ((List.finRange nr).take k) (etaInit levels)

/-! ### The specification's reading, for comparison -/

/-- The residual as the specification states it (refinement comparison):
`S = Z - fixed-effect contribution - Σ_{other levels} their current
unit-expanded contribution ... using the latest draws of earlier levels in
the same sweep`, i.e. every earlier level contributes through its freshly
drawn scores `etaN`, every later level through its start-of-iteration
scores - for all three spatial regimes alike. -/
def claimResidS (Z LFix : Fin ny → Fin ns → ℚ)
    (levels : Fin nr → RLevel ny ns)
    (etaN : (r : Fin nr) → Fin (levels r).npr → Fin (levels r).nf → ℚ)
    (r : Fin nr) : Fin ny → Fin ns → ℚ :=
  fun i j => Z i j - LFix i j - ∑ r2, if r2 = r then 0
    else if r2 < r then lranOf (levels r2) (etaN r2) i j
    else lranOf (levels r2) (levels r2).Eta i j

/-- The per-unit precision contribution as the specification states it
(refinement comparison): `Λᵀ·diag(iD)·Λ` aggregated from the
ParameterState's per-observation precision field `iD` (zero at missing
observations, Poisson-mode values for count species). -/
def claimLamInvSigLam (iDstate : Fin ny → Fin ns → ℚ) (lv : RLevel ny ns) :
    Fin lv.npr → Fin lv.nf → Fin lv.nf → ℚ :=
  lamInvSigLamOf iDstate lv

/-- The per-unit mean contribution as the specification states it
(refinement comparison): `Λ·(iD⊙S)ᵀ` aggregated from the ParameterState's
per-observation precision field `iD`. -/
def claimMu0v (iDstate S : Fin ny → Fin ns → ℚ) (lv : RLevel ny ns) :
    Fin lv.npr → Fin lv.nf → ℚ :=
  mu0vOf iDstate S lv

/-- The probit truncation interval as the specification states it
(refinement comparison): `(-∞, 0]` when `Y = 0`, `[0, ∞)` when `Y = 1`,
unbounded when missing; `none` is an unbounded endpoint. -/
def claimProbitBounds (y : Option ℚ) : Option ℚ × Option ℚ :=
  if y = some 0 then (none, some 0)
  else if y = some 1 then (some 0, none)
  else (none, none)

end EtaUpdater

/-- The sweep state before level `k`, with the (never-reached) initial
state as fallback on error: a total accessor for stating concrete facts
about intermediate sweep states. -/
def etaStateAtOr (Z : Fin ny → Fin ns → ℚ) (sigma : Fin ns → ℚ)
    (LFix : Fin ny → Fin ns → ℚ) (levels : Fin nr → RLevel ny ns)
    (noise : Fin nr → ℕ → ℚ) (sqrtQ : ℚ → ℚ) (k : ℕ) :
    EtaState ny ns levels :=
  match etaStateAt Z sigma LFix levels noise sqrtQ k with
  | .ok st => st
  | .error _ => etaInit levels

/-- The result of `updateEta`, with the input scores as fallback on error:
a total accessor for stating concrete facts about the sweep's output. -/
def updateEtaOr (Z : Fin ny → Fin ns → ℚ) (Beta : Fin nc → Fin ns → ℚ)
    (sigma : Fin ns → ℚ) (X : Fin ny → Fin nc → ℚ)
    (levels : Fin nr → RLevel ny ns) (noise : Fin nr → ℕ → ℚ)
    (sqrtQ : ℚ → ℚ) : (r : Fin nr) → Fin (levels r).npr → Fin (levels r).nf → ℚ :=
  match updateEta Z Beta sigma X levels noise sqrtQ with
  | .ok etaN => etaN
  | .error _ => fun r => (levels r).Eta

/-! ### Concrete example inputs used by witnesses and counterexamples -/

/-- A complete `params` association list for the `updateEta` prelude. -/
def exParams : List (String × ℕ) :=
  [("Z", 0), ("Beta", 1), ("sigma", 2), ("Lambda", 3), ("Eta", 4), ("Alpha", 5)]

/-- A `ModelDimensions` mapping that carries `Pi` and `X` (as the swapped
call requires) in addition to its counts. -/
def exDims : List (String × ℕ) :=
  [("ns", 20), ("nr", 21), ("nc", 22), ("Pi", 6), ("X", 7)]

/-- A `ModelData` mapping that carries `ny`, `nr`, `np`. -/
def exData : List (String × ℕ) :=
  [("Y", 30), ("ny", 8), ("nr", 9), ("np", 10)]

/-- A `ModelDimensions` mapping without `Pi` (but `Pi` present in the
ModelData mapping). -/
def exDimsNoPi : List (String × ℕ) :=
  [("ns", 20), ("nr", 21), ("nc", 22), ("X", 7)]

/-- A `ModelData` mapping that does carry `Pi`. -/
def exDataWithPi : List (String × ℕ) :=
  [("Y", 30), ("ny", 8), ("nr", 9), ("np", 10), ("Pi", 6)]

/-- A three-species family vector: one normal, one probit, one Poisson
column (`distr = [1, 2, 3]`). -/
def exDistr : Fin 3 → ℕ := fun j => (j : ℕ) + 1

/-- One observation: `Y = [5, 0, 4]` (normal observed, probit zero, count). -/
def exY : Fin 1 → Fin 3 → Option ℚ :=
  fun _ j => if j = 0 then some 5 else if j = 1 then some 0 else some 4

/-- No random levels. -/
def exZLevels : Fin 0 → ZLevel 1 3 := fun r => r.elim0

/-- A 2-D design of a single intercept covariate. -/
def exXeff : XDesign 1 1 3 := .x2 (fun _ _ => 1)

/-- `Beta = [2, 1, 0]`, so the linear predictor is `L = [2, 1, 0]`. -/
def exBeta : Fin 1 → Fin 3 → ℚ := fun _ j => if j = 0 then 2 else if j = 1 then 1 else 0

/-- Unit residual standard deviations. -/
def exSigma : Fin 3 → ℚ := fun _ => 1

/-- Previous latent surrogate; the Poisson column carries `Z = 7`. -/
def exZPrev : Fin 1 → Fin 3 → ℚ := fun _ j => if j = 2 then 7 else 0

/-- Previous Pólya-Gamma weight for the (single) Poisson column. -/
def exOmegaPrev : Fin 1 → Fin (indCol exDistr 3).length → ℚ := fun _ _ => 1

/-- The assembled `params` for `updateZ` at the example instance. -/
def exZParams : ZParams 1 3 1 0 exDistr :=
  ⟨exZPrev, exBeta, exZLevels, exSigma, exXeff, exOmegaPrev⟩

/-- A concrete oracle: unit normal draws for the normal block, the interval
midpoint as truncated-normal sample, zero draws elsewhere, and simple
stand-ins for the numeric primitives (`tanh := 1/2`, `sqrt := 0`,
`sinh := 0`, `log 1000 := 0`). -/
def exZOrc : ZOracle 1 exDistr :=
  ⟨fun _ _ => 1, fun _ _ law => (law.low + law.high) / 2,
   fun _ _ => 0, fun _ _ => 0, fun _ _ => 0,
   fun _ => 0, fun _ => 1 / 2, fun _ => 0, 0, 0⟩

/-- Options selecting the marginalized Poisson mode without pre-update. -/
def exZOptsMarg : UpdateZOpts := ⟨false, true, Backend.tf⟩

/-- A two-level instance for the latent-factor sweep: level 0 is a full
spatial GP level (one unit, one factor, zero spatial-precision table
entry), level 1 is non-spatial (one unit, one factor).  One observation,
one species, unit loadings, zero initial scores. -/
def exC2levels : Fin 2 → RLevel 1 1 := fun r =>
  if r = 0 then
    ⟨1, 1, fun _ _ => 1, fun _ _ => 0, fun _ => 0, fun _ => 0, 1, "Full",
      fun _ _ _ => 0⟩
  else
    ⟨1, 1, fun _ _ => 1, fun _ _ => 0, fun _ => 0, fun _ => 0, 0, "",
      fun _ _ _ => 0⟩

/-- `Z = [[1]]` for the sweep instance. -/
def exC2Z : Fin 1 → Fin 1 → ℚ := fun _ _ => 1

/-- `X = [[1]]`. -/
def exC2X : Fin 1 → Fin 1 → ℚ := fun _ _ => 1

/-- `Beta = [[0]]`, so the fixed-effect contribution vanishes. -/
def exC2Beta : Fin 1 → Fin 1 → ℚ := fun _ _ => 0

/-- Unit residual standard deviation. -/
def exC2sigma : Fin 1 → ℚ := fun _ => 1

/-- Noise: the spatial level draws 1, the non-spatial level draws 0. -/
def exC2noise : Fin 2 → ℕ → ℚ := fun r _ => if r = 0 then 1 else 0

/-- A square root exact on the values the instance encounters. -/
def exC2sqrt : ℚ → ℚ := fun q => if q = 1 then 1 else 0

/-- A single-level instance whose per-observation state precision `iD`
carries a zero (missing observation) at entry (1,0): one non-spatial
level, two observations of one species, both in unit 0, unit loading. -/
def exC3lv : RLevel 2 1 :=
  ⟨1, 1, fun _ _ => 1, fun _ _ => 0, fun _ => 0, fun _ => 0, 0, "",
    fun _ _ _ => 0⟩

/-- Unit residual standard deviation for the `exC3lv` instance. -/
def exC3sigma : Fin 1 → ℚ := fun _ => 1

/-- A ParameterState `iD` field with a missing observation at (1,0):
`iD = [[1],[0]]`. -/
def exC3iD : Fin 2 → Fin 1 → ℚ := fun i _ => if i = 0 then 1 else 0

/-- A single GPP level with zero factors (`nf = 0`): the sweep skips it
without raising. -/
def exC8levels : Fin 1 → RLevel 1 1 := fun _ =>
  ⟨1, 0, fun h _ => h.elim0, fun _ h => h.elim0, fun h => h.elim0, fun _ => 0,
    1, "GPP", fun _ _ _ => 0⟩

/-- A single GPP level with one factor (`nf = 1`): the sweep raises
`NotImplementedError` on it. -/
def exC8levelsPos : Fin 1 → RLevel 1 1 := fun _ =>
  ⟨1, 1, fun _ _ => 1, fun _ _ => 0, fun _ => 0, fun _ => 0, 1, "GPP",
    fun _ _ _ => 0⟩

/-- Two levels for the zero-factor frame claim: level 0 has zero factors,
level 1 is non-spatial with one factor. -/
def exC9levels : Fin 2 → RLevel 1 1 := fun r =>
  if r = 0 then
    ⟨1, 0, fun h _ => h.elim0, fun _ h => h.elim0, fun h => h.elim0, fun _ => 0,
      0, "", fun _ _ _ => 0⟩
  else
    ⟨1, 1, fun _ _ => 1, fun _ _ => 0, fun _ => 0, fun _ => 0, 0, "",
      fun _ _ _ => 0⟩

/-- The sweep state just before level 1 of the `exC2levels` instance is
processed (total form). -/
def exC2st1 : EtaState 1 1 exC2levels :=
  etaStateAtOr exC2Z exC2sigma (etaLFix exC2X exC2Beta) exC2levels exC2noise exC2sqrt 1

/-! # Theorems -/

section LoopTheorems

variable {α : Type}

theorem loopBody_eq (step : α → α) (B T : ℕ) (acc : α × List (ℕ × α)) (n : ℕ) :
    loopBody step B T acc n =
      (step acc.1,
        if saveCond B T n then acc.2 ++ [(samInd B T n, step acc.1)] else acc.2) :=
  rfl

theorem foldl_loopBody_fst (step : α → α) (B T : ℕ) :
    ∀ (l : List ℕ) (st : α) (acc : List (ℕ × α)),
      (l.foldl (loopBody step B T) (st, acc)).1 = step^[l.length] st := by
  intro l
  induction l with
  | nil => intro st acc; simp
  | cons n l ih =>
    intro st acc
    simp only [List.foldl_cons, loopBody_eq, List.length_cons]
    rw [ih]
    rw [Function.iterate_succ_apply]

theorem foldl_loopBody_acc (step : α → α) (B T : ℕ) :
    ∀ (l : List ℕ) (st : α) (acc : List (ℕ × α)),
      (l.foldl (loopBody step B T) (st, acc)).2 =
        acc ++ (l.foldl (loopBody step B T) (st, [])).2 := by
  intro l
  induction l with
  | nil => intro st acc; simp
  | cons n l ih =>
    intro st acc
    simp only [List.foldl_cons, loopBody_eq]
    rw [ih, ih (step st) (if saveCond B T n then [] ++ [(samInd B T n, step st)] else [])]
    by_cases h : saveCond B T n
    · simp [h, List.append_assoc]
    · simp [h]

theorem foldl_loopBody_noWrite (step : α → α) (B T : ℕ) :
    ∀ (l : List ℕ) (st : α) (acc : List (ℕ × α)),
      (∀ n ∈ l, ¬ saveCond B T n) →
      (l.foldl (loopBody step B T) (st, acc)).2 = acc := by
  intro l
  induction l with
  | nil => intro st acc _; rfl
  | cons n l ih =>
    intro st acc h
    simp only [List.foldl_cons, loopBody_eq]
    rw [if_neg (h n (List.mem_cons_self n l))]
    exact ih (step st) acc (fun m hm => h m (List.mem_cons_of_mem n hm))

theorem samplingRoutine_eq (step : α → α) (init : α) (B T : ℕ) (hT : 1 ≤ T) :
    ∀ N : ℕ,
      samplingRoutine step B N T init =
        (step^[B + N * T] init,
          (List.range N).map (fun k => (k, step^[B + (k + 1) * T] init))) := by
  intro N
  induction N with
  | zero =>
    unfold samplingRoutine
    refine Prod.ext ?_ ?_
    · rw [foldl_loopBody_fst]
      simp
    · simp only [List.range_zero, List.map_nil]
      exact foldl_loopBody_noWrite step B T _ init []
        (fun n hn => by
          rw [List.mem_range] at hn
          intro hc
          exact absurd hc.1 (by omega))
  | succ N ih =>
    have hsplit : B + (N + 1) * T = (B + N * T) + T := by ring
    unfold samplingRoutine at ih ⊢
    rw [hsplit, List.range_add, List.foldl_append, ih]
    -- the extra `T` iterations: the first `T - 1` write nothing
    have hTsub : T = (T - 1) + 1 := by omega
    have hrangeT : List.range T = List.range (T - 1) ++ [T - 1] := by
      conv_lhs => rw [hTsub]
      rw [List.range_succ]
    rw [hrangeT]
    simp only [List.map_append, List.foldl_append, List.map_cons, List.map_nil]
    set M := B + N * T with hM
    have hNoW : ∀ n ∈ (List.range (T - 1)).map (M + ·), ¬ saveCond B T n := by
      intro n hn hc
      rcases List.mem_map.mp hn with ⟨j, hj, rfl⟩
      rw [List.mem_range] at hj
      have h1 : M + j - B + 1 = j + 1 + N * T := by omega
      have h2 : (j + 1 + N * T) % T = (j + 1) % T := Nat.add_mul_mod_self_right _ _ _
      have h3 : (j + 1) % T = j + 1 := Nat.mod_eq_of_lt (by omega)
      have := hc.2
      rw [h1, h2, h3] at this
      omega
    have hfst : ((((List.range (T - 1)).map (M + ·)).foldl (loopBody step B T)
        (step^[M] init, (List.range (N + 1 - 1)).map
          (fun k => (k, step^[B + (k + 1) * T] init))))).1 =
        step^[T - 1] (step^[M] init) := by
      rw [foldl_loopBody_fst]
      simp
    have hacc : ((((List.range (T - 1)).map (M + ·)).foldl (loopBody step B T)
        (step^[M] init, (List.range (N + 1 - 1)).map
          (fun k => (k, step^[B + (k + 1) * T] init))))).2 =
        (List.range N).map (fun k => (k, step^[B + (k + 1) * T] init)) := by
      rw [foldl_loopBody_noWrite step B T _ _ _ hNoW]
      simp
    rw [show (N + 1 - 1) = N from rfl] at hfst hacc
    rw [(Prod.ext hfst hacc :
      (((List.range (T - 1)).map (M + ·)).foldl (loopBody step B T)
        (step^[M] init, (List.range N).map (fun k => (k, step^[B + (k + 1) * T] init)))) =
      (step^[T - 1] (step^[M] init),
        (List.range N).map (fun k => (k, step^[B + (k + 1) * T] init))))]
    -- the final iteration writes slot N
    simp only [List.foldl_cons, List.foldl_nil, loopBody_eq]
    have hcond : saveCond B T (M + (T - 1)) := by
      constructor
      · omega
      · have h1 : M + (T - 1) - B + 1 = (N + 1) * T := by
          rw [hM]; ring_nf; omega
        rw [h1, Nat.mul_mod_left]
    rw [if_pos hcond]
    have hsam : samInd B T (M + (T - 1)) = N := by
      unfold samInd
      have h1 : M + (T - 1) - B + 1 = (N + 1) * T := by
        rw [hM]; ring_nf; omega
      rw [h1, Nat.mul_div_cancel _ (by omega : 0 < T)]
      omega
    have hit : step (step^[T - 1] (step^[M] init)) = step^[M + T] init := by
      have e1 : step (step^[T - 1] (step^[M] init)) = step^[(T - 1) + 1] (step^[M] init) :=
        (Function.iterate_succ_apply' step (T - 1) _).symm
      have e2 : step^[(T - 1) + 1] (step^[M] init) = step^[(T - 1) + 1 + M] init :=
        (Function.iterate_add_apply step ((T - 1) + 1) M init).symm
      rw [e1, e2]
      congr 1
      omega
    rw [hsam, hit]
    simp only [List.range_succ, List.map_append, List.map_cons, List.map_nil, hsplit]

/-- C1: for every configuration with `numSamples = N > 0`, `burnIn = B ≥ 0`,
`thinning = T ≥ 1`, the sampling loop executes exactly `B + N*T` sequential
iterations (the final parameter state is the `B + N*T`-fold iterate of the
per-iteration step), retains exactly `N` samples, retains nothing before `B`
iterations have completed, and the k-th (0-based) retained sample is the
parameter state at the end of raw iteration `B + (k+1)*T - 1` (i.e. after
`B + (k+1)*T` applications of the step), each tracked field written to
accumulator slot `k`.  The write list below characterizes all accumulator
writes, so in particular none happens at a raw index below `B`. -/
theorem C1_loop_bookkeeping (step : α → α) (init : α) (B N T : ℕ)
    (hN : 0 < N) (hT : 1 ≤ T) :
    (samplingRoutine step B N T init).1 = step^[B + N * T] init ∧
      (samplingRoutine step B N T init).2 =
        (List.range N).map (fun k => (k, step^[B + (k + 1) * T] init)) ∧
      (samplingRoutine step B N T init).2.length = N ∧
      0 < (samplingRoutine step B N T init).2.length := by
  have h := samplingRoutine_eq step init B T hT N
  refine ⟨?_, ?_, ?_, ?_⟩
  · rw [h]
  · rw [h]
  · rw [h]
    simp
  · rw [h]
    simpa using hN

/-- Witness for C1 at `B = 2`, `N = 2`, `T = 3` with the successor step on
ℕ: the two retained samples sit in slots 0 and 1 and are the states after
raw iterations 4 and 7 (0-based), i.e. the values 5 and 8. -/
theorem C1_loop_bookkeeping_witness :
    ((0 : ℕ) < 2 ∧ (1 : ℕ) ≤ 3) ∧
      ((samplingRoutine Nat.succ 2 2 3 0).1 = Nat.succ^[2 + 2 * 3] 0 ∧
        (samplingRoutine Nat.succ 2 2 3 0).2 =
          (List.range 2).map (fun k => (k, Nat.succ^[2 + (k + 1) * 3] 0)) ∧
        (samplingRoutine Nat.succ 2 2 3 0).2.length = 2 ∧
        0 < (samplingRoutine Nat.succ 2 2 3 0).2.length) ∧
      (samplingRoutine Nat.succ 2 2 3 0).2 = [(0, 5), (1, 8)] :=
  ⟨⟨by decide, by decide⟩,
    C1_loop_bookkeeping Nat.succ 0 2 2 3 (by decide) (by decide),
    by decide⟩

end LoopTheorems

section DictTheorems

variable {α : Type}

/-- C10: in every loop iteration the sampling routine calls
`updateEta(params, modelDims, modelData, rLHyperparams)` while `updateEta`'s
signature is `(params, data, modelDims, rLHyperparams)`, so the
ModelDimensions mapping is bound to the parameter named `data` and the
ModelData mapping to the parameter named `modelDims`; consequently
`updateEta` looks up the incidence map `Pi` and design `X` in
ModelDimensions and the counts `ny`, `nr`, `np` in ModelData (first
conjunct), and the call raises a key-lookup error whenever those keys are
absent from the mapping it actually receives (second conjunct: with a
complete `params`, a ModelDimensions mapping without `"Pi"` raises
`KeyError "Pi"` even if the ModelData mapping carries `"Pi"`). -/
theorem dictGet_ok (d : List (String × α)) (k : String) (v : α) :
    dictGet d k = Except.ok v ↔ d.lookup k = some v := by
  unfold dictGet
  cases d.lookup k <;> simp

theorem C10_updateEta_argument_swap (params dims dataM : List (String × α)) :
    (∀ vals, loopCallUpdateEtaPrelude params dims dataM = Except.ok vals →
      dims.lookup "Pi" = some vals.vPi ∧ dims.lookup "X" = some vals.vX ∧
      dataM.lookup "ny" = some vals.vNy ∧ dataM.lookup "nr" = some vals.vNr ∧
      dataM.lookup "np" = some vals.vNp) ∧
    ((∃ z, params.lookup "Z" = some z) → (∃ z, params.lookup "Beta" = some z) →
      (∃ z, params.lookup "sigma" = some z) → (∃ z, params.lookup "Lambda" = some z) →
      (∃ z, params.lookup "Eta" = some z) → (∃ z, params.lookup "Alpha" = some z) →
      dims.lookup "Pi" = none →
      loopCallUpdateEtaPrelude params dims dataM = Except.error "Pi") := by
  constructor
  · intro vals h
    simp only [loopCallUpdateEtaPrelude, updateEtaPrelude, bind, Except.bind] at h
    repeat' split at h
    all_goals (try cases h)
    all_goals simp_all [dictGet_ok]
  · rintro ⟨z1, h1⟩ ⟨z2, h2⟩ ⟨z3, h3⟩ ⟨z4, h4⟩ ⟨z5, h5⟩ ⟨z6, h6⟩ hPi
    simp only [loopCallUpdateEtaPrelude, updateEtaPrelude, dictGet, bind,
      Except.bind, h1, h2, h3, h4, h5, h6, hPi]

/-- Witness for C10: with a complete `params` mapping, a ModelDimensions
mapping carrying `Pi`/`X` and a ModelData mapping carrying `ny`/`nr`/`np`,
the swapped call resolves `Pi`, `X` in ModelDimensions and `ny`, `nr`, `np`
in ModelData; with `Pi` moved into the ModelData mapping instead, the call
raises `KeyError "Pi"`. -/
theorem C10_updateEta_argument_swap_witness :
    (exDims.lookup "Pi" = some 6 ∧ exDims.lookup "X" = some 7 ∧
      exData.lookup "ny" = some 8 ∧ exData.lookup "nr" = some 9 ∧
      exData.lookup "np" = some 10) ∧
    loopCallUpdateEtaPrelude exParams exDimsNoPi exDataWithPi =
      Except.error "Pi" :=
  ⟨(C10_updateEta_argument_swap exParams exDims exData).1
      ⟨0, 1, 2, 3, 4, 5, 6, 7, 8, 9, 10⟩ rfl,
    (C10_updateEta_argument_swap exParams exDimsNoPi exDataWithPi).2
      ⟨0, by decide⟩ ⟨1, by decide⟩ ⟨2, by decide⟩ ⟨3, by decide⟩
      ⟨4, by decide⟩ ⟨5, by decide⟩ (by decide)⟩

end DictTheorems

section RecombTheorems

variable {ny ns : ℕ}

theorem filter3_perm {α : Type} (p1 p2 p3 : α → Bool) :
    ∀ l : List α,
      (∀ a ∈ l, p1 a = true ∨ p2 a = true ∨ p3 a = true) →
      (∀ a ∈ l, ¬(p1 a = true ∧ p2 a = true)) →
      (∀ a ∈ l, ¬(p1 a = true ∧ p3 a = true)) →
      (∀ a ∈ l, ¬(p2 a = true ∧ p3 a = true)) →
      List.Perm (l.filter p1 ++ l.filter p2 ++ l.filter p3) l := by
  intro l
  induction l with
  | nil => intro _ _ _ _; simp
  | cons a l ih =>
    intro hx h12 h13 h23
    have ihl := ih (fun b hb => hx b (List.mem_cons_of_mem a hb))
      (fun b hb => h12 b (List.mem_cons_of_mem a hb))
      (fun b hb => h13 b (List.mem_cons_of_mem a hb))
      (fun b hb => h23 b (List.mem_cons_of_mem a hb))
    have hbf : ∀ p : α → Bool, ¬(p a = true) → p a = false := by
      intro p hp
      rcases Bool.eq_false_or_eq_true (p a) with h | h
      · exact absurd h hp
      · exact h
    rcases hx a (List.mem_cons_self a l) with h1 | h2 | h3
    · have hn2 : p2 a = false :=
        hbf p2 (fun h => h12 a (List.mem_cons_self a l) ⟨h1, h⟩)
      have hn3 : p3 a = false :=
        hbf p3 (fun h => h13 a (List.mem_cons_self a l) ⟨h1, h⟩)
      simp only [List.filter_cons, h1, hn2, hn3, if_true, Bool.false_eq_true,
        if_false, List.cons_append]
      exact ihl.cons a
    · have hn1 : p1 a = false :=
        hbf p1 (fun h => h12 a (List.mem_cons_self a l) ⟨h, h2⟩)
      have hn3 : p3 a = false :=
        hbf p3 (fun h => h23 a (List.mem_cons_self a l) ⟨h2, h⟩)
      simp only [List.filter_cons, hn1, h2, hn3, if_true, Bool.false_eq_true,
        if_false]
      refine List.Perm.trans ?_ (ihl.cons a)
      have hmid : List.Perm (l.filter p1 ++ a :: l.filter p2)
          (a :: (l.filter p1 ++ l.filter p2)) := List.perm_middle
      exact hmid.append_right (l.filter p3)
    · have hn1 : p1 a = false :=
        hbf p1 (fun h => h13 a (List.mem_cons_self a l) ⟨h, h3⟩)
      have hn2 : p2 a = false :=
        hbf p2 (fun h => h23 a (List.mem_cons_self a l) ⟨h, h3⟩)
      simp only [List.filter_cons, hn1, hn2, h3, if_true, Bool.false_eq_true,
        if_false]
      refine List.Perm.trans ?_ (ihl.cons a)
      exact List.perm_middle

theorem indColStack_perm (distr : Fin ns → ℕ)
    (h123 : ∀ j, distr j = 1 ∨ distr j = 2 ∨ distr j = 3) :
    List.Perm (indColStack distr) (List.finRange ns) := by
  unfold indColStack indCol
  apply filter3_perm
  · intro a _
    rcases h123 a with h | h | h <;> simp [h]
  · intro a _
    simp only [decide_eq_true_eq, not_and]
    omega
  · intro a _
    simp only [decide_eq_true_eq, not_and]
    omega
  · intro a _
    simp only [decide_eq_true_eq, not_and]
    omega

theorem indColStack_length (distr : Fin ns → ℕ)
    (h123 : ∀ j, distr j = 1 ∨ distr j = 2 ∨ distr j = 3) :
    (indColStack distr).length = ns := by
  rw [(indColStack_perm distr h123).length_eq, List.length_finRange]

theorem strictMono_fin_fix {n : ℕ} (g : Fin n → ℕ) (hg : StrictMono g)
    (hlt : ∀ c, g c < n) (c : Fin n) : g c = c := by
  have lower : ∀ m, ∀ h : m < n, m ≤ g ⟨m, h⟩ := by
    intro m
    induction m with
    | zero => intro h; exact Nat.zero_le _
    | succ k ih =>
      intro h
      have hk : k < n := Nat.lt_of_succ_lt h
      have hlt2 : g ⟨k, hk⟩ < g ⟨k + 1, h⟩ := hg (by simp [Fin.lt_def])
      have := ih hk
      omega
  have upper : ∀ d m, ∀ h : m < n, n - 1 - m = d → g ⟨m, h⟩ ≤ m := by
    intro d
    induction d with
    | zero =>
      intro m h hd
      have := hlt ⟨m, h⟩
      omega
    | succ d ih =>
      intro m h hd
      have hm1 : m + 1 < n := by omega
      have h1 : g ⟨m, h⟩ < g ⟨m + 1, hm1⟩ := hg (by simp [Fin.lt_def])
      have h2 : g ⟨m + 1, hm1⟩ ≤ m + 1 := ih (m + 1) hm1 (by omega)
      omega
  have h1 := lower c c.isLt
  have h2 := upper (n - 1 - c) c c.isLt rfl
  simp only [Fin.eta] at h1 h2
  omega

theorem argsortIdx_get_val (v : List (Fin ns)) (hperm : List.Perm v (List.finRange ns))
    (c : Fin v.length) :
    ((v.get ((argsortIdx v).get (Fin.cast (argsortIdx_length v).symm c)) : Fin ns) : ℕ)
      = (c : ℕ) := by
  have hvlen : v.length = ns := by
    rw [hperm.length_eq, List.length_finRange]
  have hvnodup : v.Nodup := hperm.nodup_iff.mpr (List.nodup_finRange ns)
  let r : Fin v.length → Fin v.length → Prop := fun a b => v.get a ≤ v.get b
  haveI : IsTotal (Fin v.length) r := ⟨fun a b => le_total _ _⟩
  haveI : IsTrans (Fin v.length) r := ⟨fun _ _ _ h1 h2 => le_trans h1 h2⟩
  have hsorted : List.Sorted r (argsortIdx v) :=
    List.sorted_insertionSort r (List.finRange v.length)
  have hqnodup : (argsortIdx v).Nodup :=
    (List.perm_insertionSort r (List.finRange v.length)).nodup_iff.mpr
      (List.nodup_finRange v.length)
  have hgmono : StrictMono (fun c2 : Fin v.length =>
      ((v.get ((argsortIdx v).get (Fin.cast (argsortIdx_length v).symm c2)) : Fin ns) : ℕ)) := by
    intro a b hab
    have hab2 : Fin.cast (argsortIdx_length v).symm a <
        Fin.cast (argsortIdx_length v).symm b := hab
    have hrel : r ((argsortIdx v).get (Fin.cast (argsortIdx_length v).symm a))
        ((argsortIdx v).get (Fin.cast (argsortIdx_length v).symm b)) :=
      hsorted.rel_get_of_lt hab2
    have hne : (argsortIdx v).get (Fin.cast (argsortIdx_length v).symm a) ≠
        (argsortIdx v).get (Fin.cast (argsortIdx_length v).symm b) := by
      intro he
      have hee := (hqnodup.get_inj_iff).mp he
      have hvv := congrArg Fin.val hee
      simp only [Fin.coe_cast] at hvv
      exact absurd (Fin.ext hvv : a = b) (ne_of_lt hab)
    have hvne : v.get ((argsortIdx v).get (Fin.cast (argsortIdx_length v).symm a)) ≠
        v.get ((argsortIdx v).get (Fin.cast (argsortIdx_length v).symm b)) := by
      intro he
      exact hne ((hvnodup.get_inj_iff).mp he)
    exact Fin.lt_def.mp (lt_of_le_of_ne hrel hvne)
  have hgbound : ∀ c2 : Fin v.length,
      ((v.get ((argsortIdx v).get (Fin.cast (argsortIdx_length v).symm c2)) : Fin ns) : ℕ)
        < v.length := by
    intro c2
    exact lt_of_lt_of_eq (v.get _).isLt hvlen.symm
  exact strictMono_fin_fix _ hgmono hgbound c

theorem indCol_get_distr (distr : Fin ns → ℕ) (c0 : ℕ)
    (t : Fin (indCol distr c0).length) :
    distr ((indCol distr c0).get t) = c0 := by
  have hmem : (indCol distr c0).get t ∈ indCol distr c0 :=
    List.get_mem (indCol distr c0) t.1 t.2
  unfold indCol at hmem
  have := (List.mem_filter.mp hmem).2
  simpa using this

theorem indColStack_total_length (distr : Fin ns → ℕ) :
    (indColStack distr).length =
      (indCol distr 1).length + (indCol distr 2).length + (indCol distr 3).length := by
  unfold indColStack
  simp [List.length_append]
  omega

theorem stack_get_seg1 (distr : Fin ns → ℕ) (p : Fin (indColStack distr).length)
    (h : (p : ℕ) < (indCol distr 1).length) :
    (indColStack distr).get p = (indCol distr 1).get ⟨p, h⟩ := by
  rw [List.get_eq_getElem, List.get_eq_getElem]
  show ((indCol distr 1 ++ indCol distr 2) ++ indCol distr 3)[(p : ℕ)] = _
  rw [List.getElem_append_left (by simp [List.length_append]; omega),
    List.getElem_append_left h]

theorem stack_get_seg2 (distr : Fin ns → ℕ) (p : Fin (indColStack distr).length)
    (h1 : (indCol distr 1).length ≤ (p : ℕ))
    (h2 : (p : ℕ) < (indCol distr 1).length + (indCol distr 2).length) :
    (indColStack distr).get p =
      (indCol distr 2).get ⟨(p : ℕ) - (indCol distr 1).length, by omega⟩ := by
  rw [List.get_eq_getElem, List.get_eq_getElem]
  show ((indCol distr 1 ++ indCol distr 2) ++ indCol distr 3)[(p : ℕ)] = _
  rw [List.getElem_append_left (by simp [List.length_append]; omega),
    List.getElem_append_right h1]

theorem stack_get_seg3 (distr : Fin ns → ℕ) (p : Fin (indColStack distr).length)
    (h2 : (indCol distr 1).length + (indCol distr 2).length ≤ (p : ℕ)) :
    (indColStack distr).get p =
      (indCol distr 3).get ⟨(p : ℕ) - (indCol distr 1).length - (indCol distr 2).length, by
        have h5 := p.isLt
        have h6 := indColStack_total_length distr
        omega⟩ := by
  rw [List.get_eq_getElem, List.get_eq_getElem]
  show ((indCol distr 1 ++ indCol distr 2) ++ indCol distr 3)[(p : ℕ)] = _
  rw [List.getElem_append_right (by simp [List.length_append]; omega)]
  congr 1
  simp [List.length_append]
  omega

/-- The column of the stacked matrix addressed by output column `j` (with
`distr j = 1`) lies in the normal segment, at the position of `j` in
`indColNormal`; `gatherSort` therefore reads the normal block there. -/
theorem stack_col_family1 (distr : Fin ns → ℕ)
    (h123 : ∀ j, distr j = 1 ∨ distr j = 2 ∨ distr j = 3)
    (j : Fin ns) (hj : distr j = 1) :
    ∃ t : Fin (indCol distr 1).length,
      (indCol distr 1).get t = j ∧
      ∀ (A : Fin ny → Fin (indCol distr 1).length → ℚ)
        (B : Fin ny → Fin (indCol distr 2).length → ℚ)
        (C : Fin ny → Fin (indCol distr 3).length → ℚ) (i : Fin ny),
        gatherSort (indColStack distr)
          (stack3 (indCol distr 1) (indCol distr 2) (indCol distr 3) A B C) i
          (Fin.cast (indColStack_length distr h123).symm j) = A i t := by
  set v := indColStack distr with hv
  set c : Fin v.length := Fin.cast (indColStack_length distr h123).symm j with hc
  set p := (argsortIdx v).get (Fin.cast (argsortIdx_length v).symm c) with hp
  have hval : ((v.get p : Fin ns) : ℕ) = (c : ℕ) :=
    argsortIdx_get_val v (indColStack_perm distr h123) c
  have hvj : v.get p = j := Fin.ext hval
  have hseg : (p : ℕ) < (indCol distr 1).length := by
    by_contra hge
    push_neg at hge
    by_cases h2 : (p : ℕ) < (indCol distr 1).length + (indCol distr 2).length
    · have e1 := stack_get_seg2 distr p hge h2
      rw [hvj] at e1
      have := indCol_get_distr distr 2 ⟨(p : ℕ) - (indCol distr 1).length, by omega⟩
      rw [← e1, hj] at this
      omega
    · push_neg at h2
      have e1 := stack_get_seg3 distr p h2
      rw [hvj] at e1
      have hd3 := indCol_get_distr distr 3
        ⟨(p : ℕ) - (indCol distr 1).length - (indCol distr 2).length, by
          have h5 := p.isLt
          have h6 := indColStack_total_length distr
          have h7 := congrArg List.length hv
          omega⟩
      rw [← e1, hj] at hd3
      omega
  refine ⟨⟨p, hseg⟩, ?_, ?_⟩
  · rw [← stack_get_seg1 distr p hseg]
    exact hvj
  · intro A B C i
    unfold gatherSort
    show stack3 (indCol distr 1) (indCol distr 2) (indCol distr 3) A B C i p = A i ⟨p, hseg⟩
    unfold stack3
    rw [dif_pos hseg]

/-- As `stack_col_family1`, for the probit segment (`distr j = 2`). -/
theorem stack_col_family2 (distr : Fin ns → ℕ)
    (h123 : ∀ j, distr j = 1 ∨ distr j = 2 ∨ distr j = 3)
    (j : Fin ns) (hj : distr j = 2) :
    ∃ t : Fin (indCol distr 2).length,
      (indCol distr 2).get t = j ∧
      ∀ (A : Fin ny → Fin (indCol distr 1).length → ℚ)
        (B : Fin ny → Fin (indCol distr 2).length → ℚ)
        (C : Fin ny → Fin (indCol distr 3).length → ℚ) (i : Fin ny),
        gatherSort (indColStack distr)
          (stack3 (indCol distr 1) (indCol distr 2) (indCol distr 3) A B C) i
          (Fin.cast (indColStack_length distr h123).symm j) = B i t := by
  set v := indColStack distr with hv
  set c : Fin v.length := Fin.cast (indColStack_length distr h123).symm j with hc
  set p := (argsortIdx v).get (Fin.cast (argsortIdx_length v).symm c) with hp
  have hval : ((v.get p : Fin ns) : ℕ) = (c : ℕ) :=
    argsortIdx_get_val v (indColStack_perm distr h123) c
  have hvj : v.get p = j := Fin.ext hval
  have hseg1 : ¬ (p : ℕ) < (indCol distr 1).length := by
    intro hlt
    have e1 := stack_get_seg1 distr p hlt
    rw [hvj] at e1
    have := indCol_get_distr distr 1 ⟨(p : ℕ), hlt⟩
    rw [← e1, hj] at this
    omega
  have hseg2 : (p : ℕ) < (indCol distr 1).length + (indCol distr 2).length := by
    by_contra h2
    push_neg at h2
    have e1 := stack_get_seg3 distr p h2
    rw [hvj] at e1
    have hd3 := indCol_get_distr distr 3
      ⟨(p : ℕ) - (indCol distr 1).length - (indCol distr 2).length, by
        have h5 := p.isLt
        have h6 := indColStack_total_length distr
        have h7 := congrArg List.length hv
        omega⟩
    rw [← e1, hj] at hd3
    omega
  refine ⟨⟨(p : ℕ) - (indCol distr 1).length, by omega⟩, ?_, ?_⟩
  · rw [← stack_get_seg2 distr p (by omega) hseg2]
    exact hvj
  · intro A B C i
    unfold gatherSort
    show stack3 (indCol distr 1) (indCol distr 2) (indCol distr 3) A B C i p = _
    unfold stack3
    rw [dif_neg hseg1, dif_pos hseg2]

/-- As `stack_col_family1`, for the Poisson segment (`distr j = 3`). -/
theorem stack_col_family3 (distr : Fin ns → ℕ)
    (h123 : ∀ j, distr j = 1 ∨ distr j = 2 ∨ distr j = 3)
    (j : Fin ns) (hj : distr j = 3) :
    ∃ t : Fin (indCol distr 3).length,
      (indCol distr 3).get t = j ∧
      ∀ (A : Fin ny → Fin (indCol distr 1).length → ℚ)
        (B : Fin ny → Fin (indCol distr 2).length → ℚ)
        (C : Fin ny → Fin (indCol distr 3).length → ℚ) (i : Fin ny),
        gatherSort (indColStack distr)
          (stack3 (indCol distr 1) (indCol distr 2) (indCol distr 3) A B C) i
          (Fin.cast (indColStack_length distr h123).symm j) = C i t := by
  set v := indColStack distr with hv
  set c : Fin v.length := Fin.cast (indColStack_length distr h123).symm j with hc
  set p := (argsortIdx v).get (Fin.cast (argsortIdx_length v).symm c) with hp
  have hval : ((v.get p : Fin ns) : ℕ) = (c : ℕ) :=
    argsortIdx_get_val v (indColStack_perm distr h123) c
  have hvj : v.get p = j := Fin.ext hval
  have hseg1 : ¬ (p : ℕ) < (indCol distr 1).length := by
    intro hlt
    have e1 := stack_get_seg1 distr p hlt
    rw [hvj] at e1
    have := indCol_get_distr distr 1 ⟨(p : ℕ), hlt⟩
    rw [← e1, hj] at this
    omega
  have hseg2 : ¬ (p : ℕ) < (indCol distr 1).length + (indCol distr 2).length := by
    intro h2
    have e1 := stack_get_seg2 distr p (by omega) h2
    rw [hvj] at e1
    have := indCol_get_distr distr 2 ⟨(p : ℕ) - (indCol distr 1).length, by omega⟩
    rw [← e1, hj] at this
    omega
  have hbound : (p : ℕ) - (indCol distr 1).length - (indCol distr 2).length <
      (indCol distr 3).length := by
    have h5 := p.isLt
    have h6 := indColStack_total_length distr
    have h7 := congrArg List.length hv
    omega
  refine ⟨⟨(p : ℕ) - (indCol distr 1).length - (indCol distr 2).length, hbound⟩, ?_, ?_⟩
  · rw [← stack_get_seg3 distr p (by omega)]
    exact hvj
  · intro A B C i
    unfold gatherSort
    show stack3 (indCol distr 1) (indCol distr 2) (indCol distr 3) A B C i p = _
    unfold stack3
    rw [dif_neg hseg1, dif_neg hseg2]

end RecombTheorems

section ZClaimTheorems

variable {ny ns nc nr : ℕ}

/-- C4 (code bug): the configuration surface of `sampling_routine` does NOT
control the per-iteration augmentor behaviour.  The in-loop `updateZ` call
(gibbs_sampler.py line 100) passes no keyword options, so every iteration
runs with `updateZ`'s own defaults - probit backend `"tf"` and Poisson mode
`(preupdate := true, marginalize := false)` - regardless of the routine's
`truncated_normal_library` argument; and the routine's parameter list
(lines 37-48) carries no Poisson flags at all.  At the failing input
`truncated_normal_library = "scipy"` the backend actually used by the loop
is `"tf"`. -/
theorem C4_loop_ignores_config :
    (∀ cfg : SamplingConfig, loopUpdateZOpts cfg = updateZDefaults ∧
      (loopUpdateZOpts cfg).truncated_normal_library = Backend.tf ∧
      (loopUpdateZOpts cfg).poisson_preupdate_z = true ∧
      (loopUpdateZOpts cfg).poisson_marginalize_z = false) ∧
    (loopUpdateZOpts { samplingDefaults with truncated_normal_library := Backend.scipy
      }).truncated_normal_library = Backend.tf ∧
    Backend.tf ≠ Backend.scipy ∧
    samplingDefaults.truncated_normal_library = Backend.scipy := by
  refine ⟨fun cfg => ⟨rfl, rfl, rfl, rfl⟩, rfl, by decide, rfl⟩

/-- C5: for every species column with family code 1 (normal) and every
observed entry `(i,j)`, the augmentor returns `Z[i,j] = Y[i,j]` regardless
of `sigma` and of the linear predictor (the statement quantifies over all
parameter states); a missing entry is drawn from Normal(L, sigma), i.e.
equals `L[i,j] + sigma[j] * eps` with `eps` the entry's standard-normal
draw; and the returned precision satisfies `iD[i,j] = sigma[j]^-2` where
`Y[i,j]` is observed and `iD[i,j] = 0` where it is missing. -/
theorem C5_normal_family {distr : Fin ns → ℕ}
    (params : ZParams ny ns nc nr distr) (Y : Fin ny → Fin ns → Option ℚ)
    (opts : UpdateZOpts) (orc : ZOracle ny distr)
    (h123 : ∀ j, distr j = 1 ∨ distr j = 2 ∨ distr j = 3)
    (j : Fin ns) (hj : distr j = 1) (i : Fin ny) :
    ∃ t : Fin (indCol distr 1).length, (indCol distr 1).get t = j ∧
      (∀ y, Y i j = some y →
        (updateZ params Y opts orc).1 i
          (Fin.cast (indColStack_length distr h123).symm j) = y) ∧
      (Y i j = none →
        (updateZ params Y opts orc).1 i
          (Fin.cast (indColStack_length distr h123).symm j) =
          zLinPred params.Xeff params.Beta params.levels i j +
            params.sigma j * orc.epsNormal i t) ∧
      ((Y i j).isSome →
        (updateZ params Y opts orc).2.1 i
          (Fin.cast (indColStack_length distr h123).symm j) =
          params.sigma j ^ (-2 : ℤ)) ∧
      (Y i j = none →
        (updateZ params Y opts orc).2.1 i
          (Fin.cast (indColStack_length distr h123).symm j) = 0) := by
  obtain ⟨t, ht, hread⟩ := stack_col_family1 distr h123 j hj
  refine ⟨t, ht, ?_, ?_, ?_, ?_⟩
  · intro y hy
    show (updateZ params Y opts orc).1 i _ = y
    simp only [updateZ]
    rw [hread]
    simp only [calculate_z_normal, ht, hy]
  · intro hy
    simp only [updateZ]
    rw [hread]
    simp only [calculate_z_normal, ht, hy]
  · intro hy
    simp only [updateZ]
    rw [hread]
    simp only [calculate_z_normal, ht, hy, if_true, one_mul]
  · intro hy
    simp only [updateZ]
    rw [hread]
    simp only [calculate_z_normal, ht, hy, Option.isSome_none, Bool.false_eq_true,
      if_false, zero_mul]

theorem exDistr_h123 : ∀ j, exDistr j = 1 ∨ exDistr j = 2 ∨ exDistr j = 3 := by
  decide

/-- Witness for C5 at the example instance: species column 0 is normal with
`Y[0,0] = 5` observed. -/
theorem C5_normal_family_witness :
    (∀ j, exDistr j = 1 ∨ exDistr j = 2 ∨ exDistr j = 3) ∧ exDistr 0 = 1 ∧
    (∃ t : Fin (indCol exDistr 1).length, (indCol exDistr 1).get t = (0 : Fin 3) ∧
      (∀ y, exY 0 0 = some y →
        (updateZ exZParams exY exZOptsMarg exZOrc).1 0
          (Fin.cast (indColStack_length exDistr exDistr_h123).symm 0) = y) ∧
      (exY 0 0 = none →
        (updateZ exZParams exY exZOptsMarg exZOrc).1 0
          (Fin.cast (indColStack_length exDistr exDistr_h123).symm 0) =
          zLinPred exZParams.Xeff exZParams.Beta exZParams.levels 0 0 +
            exZParams.sigma 0 * exZOrc.epsNormal 0 t) ∧
      ((exY 0 0).isSome →
        (updateZ exZParams exY exZOptsMarg exZOrc).2.1 0
          (Fin.cast (indColStack_length exDistr exDistr_h123).symm 0) =
          exZParams.sigma 0 ^ (-2 : ℤ)) ∧
      (exY 0 0 = none →
        (updateZ exZParams exY exZOptsMarg exZOrc).2.1 0
          (Fin.cast (indColStack_length exDistr exDistr_h123).symm 0) = 0)) :=
  ⟨exDistr_h123, by decide,
    C5_normal_family exZParams exY exZOptsMarg exZOrc exDistr_h123 0 (by decide) 0⟩

theorem flatRow_flatIdx {k : ℕ} (i : Fin ny) (t : Fin k) :
    flatRow (flatIdx i t) = i := by
  unfold flatRow flatIdx
  apply Fin.ext
  show ((i : ℕ) * k + t) / k = i
  have hk : 0 < k := t.pos
  rw [Nat.add_comm, Nat.add_mul_div_right _ _ hk, Nat.div_eq_of_lt t.isLt, Nat.zero_add]

theorem flatCol_flatIdx {k : ℕ} (i : Fin ny) (t : Fin k) :
    flatCol (flatIdx i t) = t := by
  unfold flatCol flatIdx
  apply Fin.ext
  show ((i : ℕ) * k + t) % k = t
  rw [Nat.add_comm, Nat.add_mul_mod_self_right, Nat.mod_eq_of_lt t.isLt]

/-- The three probit backends construct the same per-entry truncated-normal
law: the `tf` backend's flatten/tile/reshape plumbing and the `scipy`
backend's standardized `(a, b, loc, scale)` parameterization both reduce to
the `tfd` backend's direct `(loc, scale, low, high)` (the `scipy` reduction
divides by the scale, whence `sigma ≠ 0`). -/
theorem probitLaw_backend_eq {k : ℕ} (inds : Fin k → Fin ns)
    (Y : Fin ny → Fin ns → Option ℚ) (L : Fin ny → Fin ns → ℚ)
    (sigma : Fin ns → ℚ) (i : Fin ny) (t : Fin k)
    (hs : sigma (inds t) ≠ 0) (b1 b2 : Backend) :
    probitLaw b1 inds Y L sigma i t = probitLaw b2 inds Y L sigma i t := by
  have htf : probitLawTf inds Y L sigma i t = probitLawTfd inds Y L sigma i t := by
    unfold probitLawTf probitLawTfd probitMeansFlat probitStdFlat probitLowFlat
      probitHighFlat
    rw [flatRow_flatIdx, flatCol_flatIdx]
  have hscipy : probitLawScipy inds Y L sigma i t = probitLawTfd inds Y L sigma i t := by
    unfold probitLawScipy probitLawTfd probitMeansFlat probitStdFlat probitLowFlat
      probitHighFlat
    rw [flatRow_flatIdx, flatCol_flatIdx]
    have hrec : ∀ q : ℚ,
        L i (inds t) + (q - L i (inds t)) / sigma (inds t) * sigma (inds t) = q := by
      intro q
      rw [div_mul_cancel₀ _ hs]
      ring
    simp only []
    rw [hrec, hrec]
  cases b1 <;> cases b2 <;>
    simp only [probitLaw, htf, hscipy]

/-- C6 counterexample: the claim asserts the probit draw is truncated to the
unbounded interval `(-∞, 0]` when `Y = 0`, but at the concrete instance
(`Y[0,1] = 0`) the code's truncation interval is `[-1000, 0]`: its lower
endpoint is the finite rational `-INFTY = -1000` (updateZ.py line 101),
not the unbounded endpoint the specification states. -/
theorem C6_probit_counterexample :
    exY 0 1 = some 0 ∧
    (probitLawTfd ((indCol exDistr 2).get) exY
        (zLinPred exXeff exBeta exZLevels) exSigma 0
        (⟨0, by decide⟩ : Fin (indCol exDistr 2).length)).low = -1000 ∧
    (probitLawTfd ((indCol exDistr 2).get) exY
        (zLinPred exXeff exBeta exZLevels) exSigma 0
        (⟨0, by decide⟩ : Fin (indCol exDistr 2).length)).high = 0 ∧
    claimProbitBounds (exY 0 1) = (none, some 0) ∧
    (some (probitLawTfd ((indCol exDistr 2).get) exY
        (zLinPred exXeff exBeta exZLevels) exSigma 0
        (⟨0, by decide⟩ : Fin (indCol exDistr 2).length)).low,
      some (probitLawTfd ((indCol exDistr 2).get) exY
        (zLinPred exXeff exBeta exZLevels) exSigma 0
        (⟨0, by decide⟩ : Fin (indCol exDistr 2).length)).high) ≠
      claimProbitBounds (exY 0 1) := by
  have hget : (indCol exDistr 2).get (⟨0, by decide⟩ : Fin (indCol exDistr 2).length) = 1 := by
    decide
  refine ⟨by decide, ?_, ?_, by decide, ?_⟩
  · unfold probitLawTfd
    rw [hget]
    simp [probitLow, exY, INFTY]
  · unfold probitLawTfd
    rw [hget]
    simp [probitHigh, exY, INFTY]
  · unfold probitLawTfd
    rw [hget]
    intro hcontra
    have h1 := congrArg Prod.fst hcontra
    simp [probitLow, exY, claimProbitBounds] at h1

/-- C6 amended: for every species column with family code 2 (probit) and
every entry `(i,j)`, the augmentor draws `Z[i,j]` from the per-entry law
Normal(L, sigma) truncated to `[-INFTY, 0]` when `Y[i,j] = 0`, to
`[0, INFTY]` when `Y[i,j] = 1`, and to `[-INFTY, INFTY]` when missing, with
`INFTY` the finite surrogate `1e3` (not the unbounded endpoints the claim
states); the three selectable backends construct identical laws
(behavioural equivalence, given `sigma[j] ≠ 0`); and whenever the sampling
oracle's draw is interior to its truncation interval, `Z[i,j] < 0` when
`Y = 0` and `Z[i,j] > 0` when `Y = 1`.  `iD = sigma^-2` observed, `0`
missing. -/
theorem C6_probit_family_amended {distr : Fin ns → ℕ}
    (params : ZParams ny ns nc nr distr) (Y : Fin ny → Fin ns → Option ℚ)
    (opts : UpdateZOpts) (orc : ZOracle ny distr)
    (h123 : ∀ j, distr j = 1 ∨ distr j = 2 ∨ distr j = 3)
    (j : Fin ns) (hj : distr j = 2) (i : Fin ny) :
    ∃ t : Fin (indCol distr 2).length, (indCol distr 2).get t = j ∧
      (params.sigma j ≠ 0 → ∀ b1 b2 : Backend,
        probitEntryLaw params Y b1 i t = probitEntryLaw params Y b2 i t) ∧
      probitEntryLaw params Y Backend.tfd i t =
        ⟨zLinPred params.Xeff params.Beta params.levels i j, params.sigma j,
          probitLow (Y i j), probitHigh (Y i j)⟩ ∧
      (Y i j = some 0 → probitLow (Y i j) = -INFTY ∧ probitHigh (Y i j) = 0) ∧
      (Y i j = some 1 → probitLow (Y i j) = 0 ∧ probitHigh (Y i j) = INFTY) ∧
      (Y i j = none → probitLow (Y i j) = -INFTY ∧ probitHigh (Y i j) = INFTY) ∧
      ((updateZ params Y opts orc).1 i
          (Fin.cast (indColStack_length distr h123).symm j) =
        orc.tnSample i t
          (probitEntryLaw params Y opts.truncated_normal_library i t)) ∧
      (Y i j = some 0 → params.sigma j ≠ 0 →
        orc.tnSample i t (probitEntryLaw params Y opts.truncated_normal_library i t) <
          (probitEntryLaw params Y opts.truncated_normal_library i t).high →
        (updateZ params Y opts orc).1 i
          (Fin.cast (indColStack_length distr h123).symm j) < 0) ∧
      (Y i j = some 1 → params.sigma j ≠ 0 →
        (probitEntryLaw params Y opts.truncated_normal_library i t).low <
          orc.tnSample i t (probitEntryLaw params Y opts.truncated_normal_library i t) →
        0 < (updateZ params Y opts orc).1 i
          (Fin.cast (indColStack_length distr h123).symm j)) ∧
      ((Y i j).isSome →
        (updateZ params Y opts orc).2.1 i
          (Fin.cast (indColStack_length distr h123).symm j) =
          params.sigma j ^ (-2 : ℤ)) ∧
      (Y i j = none →
        (updateZ params Y opts orc).2.1 i
          (Fin.cast (indColStack_length distr h123).symm j) = 0) := by
  obtain ⟨t, ht, hread⟩ := stack_col_family2 distr h123 j hj
  have hbe : params.sigma j ≠ 0 → ∀ b1 b2 : Backend,
      probitEntryLaw params Y b1 i t = probitEntryLaw params Y b2 i t := by
    intro hs b1 b2
    unfold probitEntryLaw
    exact probitLaw_backend_eq _ Y _ params.sigma i t (by rw [ht]; exact hs) b1 b2
  have htfd : probitEntryLaw params Y Backend.tfd i t =
      ⟨zLinPred params.Xeff params.Beta params.levels i j, params.sigma j,
        probitLow (Y i j), probitHigh (Y i j)⟩ := by
    show probitLawTfd ((indCol distr 2).get) Y
      (zLinPred params.Xeff params.Beta params.levels) params.sigma i t = _
    unfold probitLawTfd
    rw [ht]
  have hZ : (updateZ params Y opts orc).1 i
      (Fin.cast (indColStack_length distr h123).symm j) =
      orc.tnSample i t (probitEntryLaw params Y opts.truncated_normal_library i t) := by
    simp only [updateZ]
    rw [hread]
    rfl
  refine ⟨t, ht, hbe, htfd, ?_, ?_, ?_, hZ, ?_, ?_, ?_, ?_⟩
  · intro hy
    refine ⟨by simp [probitLow, hy], by simp [probitHigh, hy]⟩
  · intro hy
    refine ⟨by simp [probitLow, hy], by simp [probitHigh, hy]⟩
  · intro hy
    refine ⟨by simp [probitLow, hy], by simp [probitHigh, hy]⟩
  · intro hy hs hlt
    rw [hZ]
    have hhigh : (probitEntryLaw params Y opts.truncated_normal_library i t).high = 0 := by
      rw [hbe hs opts.truncated_normal_library Backend.tfd, htfd]
      show probitHigh (Y i j) = 0
      simp [probitHigh, hy]
    exact lt_of_lt_of_eq hlt hhigh
  · intro hy hs hlt
    rw [hZ]
    have hlow : (probitEntryLaw params Y opts.truncated_normal_library i t).low = 0 := by
      rw [hbe hs opts.truncated_normal_library Backend.tfd, htfd]
      show probitLow (Y i j) = 0
      simp [probitLow, hy]
    exact lt_of_eq_of_lt hlow.symm hlt
  · intro hy
    simp only [updateZ]
    rw [hread]
    simp only [calculate_z_probit, ht, hy, if_true, one_mul]
  · intro hy
    simp only [updateZ]
    rw [hread]
    simp only [calculate_z_probit, ht, hy, Option.isSome_none, Bool.false_eq_true,
      if_false, zero_mul]

/-- Witness for the amended C6 at the example instance: species column 1 is
probit with `Y[0,1] = 0` observed and unit `sigma`. -/
theorem C6_probit_family_amended_witness :
    (∀ j, exDistr j = 1 ∨ exDistr j = 2 ∨ exDistr j = 3) ∧ exDistr 1 = 2 ∧
    (∃ t : Fin (indCol exDistr 2).length, (indCol exDistr 2).get t = (1 : Fin 3) ∧
      (exZParams.sigma 1 ≠ 0 → ∀ b1 b2 : Backend,
        probitEntryLaw exZParams exY b1 0 t = probitEntryLaw exZParams exY b2 0 t) ∧
      probitEntryLaw exZParams exY Backend.tfd 0 t =
        ⟨zLinPred exZParams.Xeff exZParams.Beta exZParams.levels 0 1, exZParams.sigma 1,
          probitLow (exY 0 1), probitHigh (exY 0 1)⟩ ∧
      (exY 0 1 = some 0 → probitLow (exY 0 1) = -INFTY ∧ probitHigh (exY 0 1) = 0) ∧
      (exY 0 1 = some 1 → probitLow (exY 0 1) = 0 ∧ probitHigh (exY 0 1) = INFTY) ∧
      (exY 0 1 = none → probitLow (exY 0 1) = -INFTY ∧ probitHigh (exY 0 1) = INFTY) ∧
      ((updateZ exZParams exY exZOptsMarg exZOrc).1 0
          (Fin.cast (indColStack_length exDistr exDistr_h123).symm 1) =
        exZOrc.tnSample 0 t
          (probitEntryLaw exZParams exY exZOptsMarg.truncated_normal_library 0 t)) ∧
      (exY 0 1 = some 0 → exZParams.sigma 1 ≠ 0 →
        exZOrc.tnSample 0 t
            (probitEntryLaw exZParams exY exZOptsMarg.truncated_normal_library 0 t) <
          (probitEntryLaw exZParams exY exZOptsMarg.truncated_normal_library 0 t).high →
        (updateZ exZParams exY exZOptsMarg exZOrc).1 0
          (Fin.cast (indColStack_length exDistr exDistr_h123).symm 1) < 0) ∧
      (exY 0 1 = some 1 → exZParams.sigma 1 ≠ 0 →
        (probitEntryLaw exZParams exY exZOptsMarg.truncated_normal_library 0 t).low <
          exZOrc.tnSample 0 t
            (probitEntryLaw exZParams exY exZOptsMarg.truncated_normal_library 0 t) →
        0 < (updateZ exZParams exY exZOptsMarg exZOrc).1 0
          (Fin.cast (indColStack_length exDistr exDistr_h123).symm 1)) ∧
      ((exY 0 1).isSome →
        (updateZ exZParams exY exZOptsMarg exZOrc).2.1 0
          (Fin.cast (indColStack_length exDistr exDistr_h123).symm 1) =
          exZParams.sigma 1 ^ (-2 : ℤ)) ∧
      (exY 0 1 = none →
        (updateZ exZParams exY exZOptsMarg exZOrc).2.1 0
          (Fin.cast (indColStack_length exDistr exDistr_h123).symm 1) = 0)) :=
  ⟨exDistr_h123, by decide,
    C6_probit_family_amended exZParams exY exZOptsMarg exZOrc exDistr_h123 1
      (by decide) 0⟩

/-- C7: for every species column with family code 3 (Poisson), the
auxiliary weight is drawn from the (large-shape normal approximation of
the) Pólya-Gamma law with shape `Y + r` for fixed `r = 1000` - so for count
data (`Y ≥ 0`) the shape is always at least 1000, and the source implements
only that normal-approximation branch (`draw_polya_gamma`) - and in
marginalized mode the augmentor returns exactly
`iD[i,j] = (sigma[j]^2 + omega[i,j]^-1)^-1` at observed entries (0 at
missing) and point value `Z[i,j] = (Y[i,j] - r)/(2*omega[i,j]) + ln r`. -/
theorem C7_poisson_family {distr : Fin ns → ℕ}
    (params : ZParams ny ns nc nr distr) (Y : Fin ny → Fin ns → Option ℚ)
    (opts : UpdateZOpts) (orc : ZOracle ny distr)
    (h123 : ∀ j, distr j = 1 ∨ distr j = 2 ∨ distr j = 3)
    (j : Fin ns) (hj : distr j = 3) (i : Fin ny)
    (hmarg : opts.poisson_marginalize_z = true) :
    ∃ t : Fin (indCol distr 3).length, (indCol distr 3).get t = j ∧
      (∃ zArg, (updateZ params Y opts orc).2.2 =
        draw_polya_gamma orc.sqrtQ orc.tanhQ orc.sinhQ
          (fun i2 t2 => (Y i2 ((indCol distr 3).get t2)).getD orc.nanVal + 1000)
          zArg orc.epsPG) ∧
      (∀ y : ℚ, Y i j = some y → 0 ≤ y → (1000 : ℚ) ≤ y + 1000) ∧
      (∀ y, Y i j = some y →
        (updateZ params Y opts orc).2.1 i
          (Fin.cast (indColStack_length distr h123).symm j) =
          (params.sigma j ^ 2 + ((updateZ params Y opts orc).2.2 i t)⁻¹)⁻¹) ∧
      (Y i j = none →
        (updateZ params Y opts orc).2.1 i
          (Fin.cast (indColStack_length distr h123).symm j) = 0) ∧
      (∀ y, Y i j = some y →
        (updateZ params Y opts orc).1 i
          (Fin.cast (indColStack_length distr h123).symm j) =
          (y - 1000) / (2 * ((updateZ params Y opts orc).2.2 i t)) + orc.lnr) := by
  obtain ⟨t, ht, hread⟩ := stack_col_family3 distr h123 j hj
  refine ⟨t, ht, ?_, ?_, ?_, ?_, ?_⟩
  · simp only [updateZ, calculate_z_poisson, hmarg, if_true]
    exact ⟨_, rfl⟩
  · intro y _ hy0
    linarith
  · intro y hy
    simp only [updateZ]
    rw [hread]
    simp only [calculate_z_poisson, hmarg, if_true, ht, hy, Option.isSome_some,
      Option.getD_some, one_mul]
  · intro hy
    simp only [updateZ]
    rw [hread]
    simp only [calculate_z_poisson, hmarg, if_true, ht, hy, Option.isSome_none,
      Bool.false_eq_true, if_false, zero_mul]
  · intro y hy
    simp only [updateZ]
    rw [hread]
    simp only [calculate_z_poisson, hmarg, if_true, ht, hy, Option.getD_some]

/-- Witness for C7 at the example instance: species column 2 is Poisson
with `Y[0,2] = 4` and marginalized mode selected. -/
theorem C7_poisson_family_witness :
    (∀ j, exDistr j = 1 ∨ exDistr j = 2 ∨ exDistr j = 3) ∧ exDistr 2 = 3 ∧
    exZOptsMarg.poisson_marginalize_z = true ∧
    (∃ t : Fin (indCol exDistr 3).length, (indCol exDistr 3).get t = (2 : Fin 3) ∧
      (∃ zArg, (updateZ exZParams exY exZOptsMarg exZOrc).2.2 =
        draw_polya_gamma exZOrc.sqrtQ exZOrc.tanhQ exZOrc.sinhQ
          (fun i2 t2 => (exY i2 ((indCol exDistr 3).get t2)).getD exZOrc.nanVal + 1000)
          zArg exZOrc.epsPG) ∧
      (∀ y : ℚ, exY 0 2 = some y → 0 ≤ y → (1000 : ℚ) ≤ y + 1000) ∧
      (∀ y, exY 0 2 = some y →
        (updateZ exZParams exY exZOptsMarg exZOrc).2.1 0
          (Fin.cast (indColStack_length exDistr exDistr_h123).symm 2) =
          (exZParams.sigma 2 ^ 2 + ((updateZ exZParams exY exZOptsMarg exZOrc).2.2 0 t)⁻¹)⁻¹) ∧
      (exY 0 2 = none →
        (updateZ exZParams exY exZOptsMarg exZOrc).2.1 0
          (Fin.cast (indColStack_length exDistr exDistr_h123).symm 2) = 0) ∧
      (∀ y, exY 0 2 = some y →
        (updateZ exZParams exY exZOptsMarg exZOrc).1 0
          (Fin.cast (indColStack_length exDistr exDistr_h123).symm 2) =
          (y - 1000) / (2 * ((updateZ exZParams exY exZOptsMarg exZOrc).2.2 0 t)) +
            exZOrc.lnr)) :=
  ⟨exDistr_h123, by decide, by decide,
    C7_poisson_family exZParams exY exZOptsMarg exZOrc exDistr_h123 2
      (by decide) 0 (by decide)⟩

end ZClaimTheorems

section EtaClaimTheorems

variable {ny ns nc nr : ℕ}

/-- The per-level step, zeta-expanded: the branch structure of
updateEta.py lines 47-67 made explicit. -/
theorem etaStep_eq (Z : Fin ny → Fin ns → ℚ) (sigma : Fin ns → ℚ)
    (LFix : Fin ny → Fin ns → ℚ) (levels : Fin nr → RLevel ny ns)
    (noise : Fin nr → ℕ → ℚ) (sqrtQ : ℚ → ℚ)
    (st : EtaState ny ns levels) (r : Fin nr) :
    etaStep Z sigma LFix levels noise sqrtQ st r =
      if 0 < (levels r).nf then
        if 0 < (levels r).sDim then
          if (levels r).spatialMethod = "NNGP" then
            .ok ⟨st.lran, Function.update st.etaNew r
              (modelSpatialNNGP (levels r).npr (levels r).nf
                (lamInvSigLamOf (etaID sigma) (levels r))
                (mu0vOf (etaID sigma) (residS Z LFix st.lran r) (levels r))
                (levels r).Alpha (levels r).piCol (levels r).iWg
                (residS Z LFix st.lran r) (fun j => sigma j ^ (-2 : ℤ))
                sqrtQ (noise r))⟩
          else if (levels r).spatialMethod = "GPP" then
            .error "NotImplementedError"
          else
            .ok ⟨st.lran, Function.update st.etaNew r
              (modelSpatialFull (levels r).npr (levels r).nf
                (lamInvSigLamOf (etaID sigma) (levels r))
                (mu0vOf (etaID sigma) (residS Z LFix st.lran r) (levels r))
                (levels r).Alpha (levels r).iWg sqrtQ (noise r))⟩
        else
          .ok ⟨Function.update st.lran r
              (lranOf (levels r) (modelNonSpatial (levels r).npr (levels r).nf
                (lamInvSigLamOf (etaID sigma) (levels r))
                (mu0vOf (etaID sigma) (residS Z LFix st.lran r) (levels r))
                sqrtQ (noise r))),
            Function.update st.etaNew r
              (modelNonSpatial (levels r).npr (levels r).nf
                (lamInvSigLamOf (etaID sigma) (levels r))
                (mu0vOf (etaID sigma) (residS Z LFix st.lran r) (levels r))
                sqrtQ (noise r))⟩
      else
        .ok ⟨st.lran, Function.update st.etaNew r (levels r).Eta⟩ :=
  rfl

/-- A step at level `r` leaves every other level's slots unchanged. -/
theorem etaStep_frame (Z : Fin ny → Fin ns → ℚ) (sigma : Fin ns → ℚ)
    (LFix : Fin ny → Fin ns → ℚ) (levels : Fin nr → RLevel ny ns)
    (noise : Fin nr → ℕ → ℚ) (sqrtQ : ℚ → ℚ)
    (st st1 : EtaState ny ns levels) (r r2 : Fin nr) (hne : r2 ≠ r)
    (h : etaStep Z sigma LFix levels noise sqrtQ st r = .ok st1) :
    st1.etaNew r2 = st.etaNew r2 ∧ st1.lran r2 = st.lran r2 := by
  rw [etaStep_eq] at h
  by_cases h1 : 0 < (levels r).nf
  · rw [if_pos h1] at h
    by_cases h2 : 0 < (levels r).sDim
    · rw [if_pos h2] at h
      by_cases h3 : (levels r).spatialMethod = "NNGP"
      · rw [if_pos h3] at h
        cases h
        exact ⟨Function.update_noteq hne _ _, rfl⟩
      · rw [if_neg h3] at h
        by_cases h4 : (levels r).spatialMethod = "GPP"
        · rw [if_pos h4] at h
          cases h
        · rw [if_neg h4] at h
          cases h
          exact ⟨Function.update_noteq hne _ _, rfl⟩
    · rw [if_neg h2] at h
      cases h
      exact ⟨Function.update_noteq hne _ _, Function.update_noteq hne _ _⟩
  · rw [if_neg h1] at h
    cases h
    exact ⟨Function.update_noteq hne _ _, rfl⟩

/-- Sweeping a concatenation is sweeping the pieces in order. -/
theorem etaLoop_append (Z : Fin ny → Fin ns → ℚ) (sigma : Fin ns → ℚ)
    (LFix : Fin ny → Fin ns → ℚ) (levels : Fin nr → RLevel ny ns)
    (noise : Fin nr → ℕ → ℚ) (sqrtQ : ℚ → ℚ) :
    ∀ (l1 l2 : List (Fin nr)) (st : EtaState ny ns levels),
      etaLoop Z sigma LFix levels noise sqrtQ (l1 ++ l2) st =
        match etaLoop Z sigma LFix levels noise sqrtQ l1 st with
        | .ok st1 => etaLoop Z sigma LFix levels noise sqrtQ l2 st1
        | .error e => .error e := by
  intro l1
  induction l1 with
  | nil => intro l2 st; rfl
  | cons r rs ih =>
    intro l2 st
    have hstep : etaLoop Z sigma LFix levels noise sqrtQ ((r :: rs) ++ l2) st =
        match etaStep Z sigma LFix levels noise sqrtQ st r with
        | .error e => .error e
        | .ok st1 => etaLoop Z sigma LFix levels noise sqrtQ (rs ++ l2) st1 := rfl
    have hstep2 : etaLoop Z sigma LFix levels noise sqrtQ (r :: rs) st =
        match etaStep Z sigma LFix levels noise sqrtQ st r with
        | .error e => .error e
        | .ok st1 => etaLoop Z sigma LFix levels noise sqrtQ rs st1 := rfl
    rw [hstep, hstep2]
    cases etaStep Z sigma LFix levels noise sqrtQ st r with
    | error e => rfl
    | ok st1 =>
      dsimp only
      exact ih l2 st1

/-- Sweeping levels that all lie at or above `m` leaves every level below
`m` unchanged. -/
theorem etaLoop_ge_frame (Z : Fin ny → Fin ns → ℚ) (sigma : Fin ns → ℚ)
    (LFix : Fin ny → Fin ns → ℚ) (levels : Fin nr → RLevel ny ns)
    (noise : Fin nr → ℕ → ℚ) (sqrtQ : ℚ → ℚ) :
    ∀ (l : List (Fin nr)) (st st1 : EtaState ny ns levels) (m : ℕ),
      (∀ r2 ∈ l, m ≤ (r2 : ℕ)) →
      etaLoop Z sigma LFix levels noise sqrtQ l st = .ok st1 →
      ∀ r2 : Fin nr, (r2 : ℕ) < m →
        st1.etaNew r2 = st.etaNew r2 ∧ st1.lran r2 = st.lran r2 := by
  intro l
  induction l with
  | nil =>
    intro st st1 m _ h r2 _
    cases h
    exact ⟨rfl, rfl⟩
  | cons r rs ih =>
    intro st st1 m hge h r2 hlt
    unfold etaLoop at h
    cases hstep : etaStep Z sigma LFix levels noise sqrtQ st r with
    | error e => rw [hstep] at h; cases h
    | ok stMid =>
      rw [hstep] at h
      have hne : r2 ≠ r := by
        intro he
        have h4 := hge r (List.mem_cons_self r rs)
        rw [← he] at h4
        omega
      have h1 := etaStep_frame Z sigma LFix levels noise sqrtQ st stMid r r2 hne hstep
      have h2 := ih stMid st1 m (fun r3 h3 => hge r3 (List.mem_cons_of_mem r h3)) h r2 hlt
      exact ⟨h2.1.trans h1.1, h2.2.trans h1.2⟩

theorem mem_finRange_drop_ge (m : ℕ) (r : Fin nr)
    (h : r ∈ (List.finRange nr).drop m) : m ≤ (r : ℕ) := by
  rcases List.mem_iff_getElem.mp h with ⟨n, hn, hget⟩
  rw [List.getElem_drop, List.getElem_finRange] at hget
  have := congrArg Fin.val hget
  simp only [Fin.coe_cast] at this
  omega

theorem etaLoop_singleton (Z : Fin ny → Fin ns → ℚ) (sigma : Fin ns → ℚ)
    (LFix : Fin ny → Fin ns → ℚ) (levels : Fin nr → RLevel ny ns)
    (noise : Fin nr → ℕ → ℚ) (sqrtQ : ℚ → ℚ)
    (st : EtaState ny ns levels) (r : Fin nr) :
    etaLoop Z sigma LFix levels noise sqrtQ [r] st =
      etaStep Z sigma LFix levels noise sqrtQ st r := by
  cases hstep : etaStep Z sigma LFix levels noise sqrtQ st r with
  | error e => simp [etaLoop, hstep]
  | ok st1 => simp [etaLoop, hstep]

theorem etaStateAt_succ (Z : Fin ny → Fin ns → ℚ) (sigma : Fin ns → ℚ)
    (LFix : Fin ny → Fin ns → ℚ) (levels : Fin nr → RLevel ny ns)
    (noise : Fin nr → ℕ → ℚ) (sqrtQ : ℚ → ℚ) (k : ℕ) (hk : k < nr) :
    etaStateAt Z sigma LFix levels noise sqrtQ (k + 1) =
      match etaStateAt Z sigma LFix levels noise sqrtQ k with
      | .ok st => etaStep Z sigma LFix levels noise sqrtQ st ⟨k, hk⟩
      | .error e => .error e := by
  unfold etaStateAt
  have hklen : k < (List.finRange nr).length := by
    rw [List.length_finRange]; exact hk
  have htake : (List.finRange nr).take (k + 1) =
      (List.finRange nr).take k ++ [⟨k, hk⟩] := by
    rw [List.take_succ]
    congr 1
    rw [List.getElem?_eq_getElem hklen, List.getElem_finRange]
    rfl
  rw [htake, etaLoop_append]
  cases hpre : etaLoop Z sigma LFix levels noise sqrtQ
      ((List.finRange nr).take k) (etaInit levels) with
  | error e => rfl
  | ok stk => exact etaLoop_singleton Z sigma LFix levels noise sqrtQ stk ⟨k, hk⟩

/-- The sweep-state invariant: after the first `k` levels, a level not yet
processed still carries its input scores and its start-of-iteration
contribution; a processed level's cached contribution reflects its freshly
drawn scores exactly when the level is non-spatial with a positive factor
count, and is otherwise still the start-of-iteration contribution (the
spatial branches never execute updateEta.py line 65). -/
theorem etaStateAt_spec (Z : Fin ny → Fin ns → ℚ) (sigma : Fin ns → ℚ)
    (LFix : Fin ny → Fin ns → ℚ) (levels : Fin nr → RLevel ny ns)
    (noise : Fin nr → ℕ → ℚ) (sqrtQ : ℚ → ℚ) :
    ∀ k : ℕ, ∀ st, etaStateAt Z sigma LFix levels noise sqrtQ k = .ok st →
      (∀ r : Fin nr, k ≤ (r : ℕ) →
        st.etaNew r = (levels r).Eta ∧
          st.lran r = lranOf (levels r) (levels r).Eta) ∧
      (∀ r : Fin nr, (r : ℕ) < k →
        ((levels r).sDim = 0 ∧ 0 < (levels r).nf →
          st.lran r = lranOf (levels r) (st.etaNew r)) ∧
        (¬((levels r).sDim = 0 ∧ 0 < (levels r).nf) →
          st.lran r = lranOf (levels r) (levels r).Eta)) := by
  intro k
  induction k with
  | zero =>
    intro st h
    have hst : (Except.ok (etaInit levels) : Except String (EtaState ny ns levels)) =
        .ok st := h
    cases hst
    exact ⟨fun r _ => ⟨rfl, rfl⟩, fun r hr => absurd hr (by omega)⟩
  | succ k ih =>
    intro st h
    by_cases hk : k < nr
    case neg =>
      -- k ≥ nr: take (k+1) and take k are the whole list
      have he1 : (List.finRange nr).take (k + 1) = (List.finRange nr).take k := by
        rw [List.take_of_length_le, List.take_of_length_le] <;>
          simp [List.length_finRange] <;> omega
      have h2 : etaStateAt Z sigma LFix levels noise sqrtQ k = .ok st := by
        unfold etaStateAt at h ⊢
        rw [he1] at h
        exact h
      obtain ⟨ihU, ihP⟩ := ih st h2
      refine ⟨fun r hr => ihU r (by omega), fun r hr => ?_⟩
      have hrk : (r : ℕ) < k := by
        have := r.isLt
        omega
      exact ihP r hrk
    case pos =>
      rw [etaStateAt_succ Z sigma LFix levels noise sqrtQ k hk] at h
      cases hpre : etaStateAt Z sigma LFix levels noise sqrtQ k with
      | error e => rw [hpre] at h; cases h
      | ok stk =>
        rw [hpre] at h
        replace h : etaStep Z sigma LFix levels noise sqrtQ stk ⟨k, hk⟩ = .ok st := h
        obtain ⟨ihU, ihP⟩ := ih stk hpre
        have hkv : ((⟨k, hk⟩ : Fin nr) : ℕ) = k := rfl
        have hneOf : ∀ r : Fin nr, k + 1 ≤ (r : ℕ) → r ≠ ⟨k, hk⟩ := by
          intro r hr he
          rw [he] at hr
          omega
        have hltOf : ∀ r : Fin nr, (r : ℕ) < k + 1 → r ≠ ⟨k, hk⟩ → (r : ℕ) < k := by
          intro r hr hne
          have hvne : (r : ℕ) ≠ k := fun he => hne (Fin.ext he)
          omega
        rw [etaStep_eq] at h
        by_cases h1 : 0 < (levels ⟨k, hk⟩).nf
        · rw [if_pos h1] at h
          by_cases h2 : 0 < (levels ⟨k, hk⟩).sDim
          · rw [if_pos h2] at h
            have hnc : ¬((levels ⟨k, hk⟩).sDim = 0 ∧ 0 < (levels ⟨k, hk⟩).nf) := by
              intro hc
              omega
            have hcont : ∀ v, st = ⟨stk.lran, Function.update stk.etaNew ⟨k, hk⟩ v⟩ →
                (∀ r : Fin nr, k + 1 ≤ (r : ℕ) →
                  st.etaNew r = (levels r).Eta ∧
                    st.lran r = lranOf (levels r) (levels r).Eta) ∧
                (∀ r : Fin nr, (r : ℕ) < k + 1 →
                  ((levels r).sDim = 0 ∧ 0 < (levels r).nf →
                    st.lran r = lranOf (levels r) (st.etaNew r)) ∧
                  (¬((levels r).sDim = 0 ∧ 0 < (levels r).nf) →
                    st.lran r = lranOf (levels r) (levels r).Eta)) := by
              intro v hv
              subst hv
              refine ⟨fun r hr => ?_, fun r hr => ?_⟩
              · refine ⟨?_, (ihU r (by omega)).2⟩
                show Function.update stk.etaNew ⟨k, hk⟩ v r = (levels r).Eta
                rw [Function.update_noteq (hneOf r hr)]
                exact (ihU r (by omega)).1
              · by_cases hrk : r = ⟨k, hk⟩
                · refine ⟨fun hc => absurd (hrk ▸ hc) hnc, fun _ => ?_⟩
                  show stk.lran r = lranOf (levels r) (levels r).Eta
                  exact (ihU r (by rw [hrk, hkv])).2
                · have hrlt := hltOf r hr hrk
                  refine ⟨fun hc => ?_, fun hc => (ihP r hrlt).2 hc⟩
                  show stk.lran r = lranOf (levels r)
                    (Function.update stk.etaNew ⟨k, hk⟩ v r)
                  rw [Function.update_noteq hrk]
                  exact (ihP r hrlt).1 hc
            by_cases h3 : (levels ⟨k, hk⟩).spatialMethod = "NNGP"
            · rw [if_pos h3] at h
              cases h
              exact hcont _ rfl
            · rw [if_neg h3] at h
              by_cases h4 : (levels ⟨k, hk⟩).spatialMethod = "GPP"
              · rw [if_pos h4] at h
                cases h
              · rw [if_neg h4] at h
                cases h
                exact hcont _ rfl
          · rw [if_neg h2] at h
            cases h
            have hc0 : (levels ⟨k, hk⟩).sDim = 0 ∧ 0 < (levels ⟨k, hk⟩).nf := by
              omega
            refine ⟨fun r hr => ?_, fun r hr => ?_⟩
            · refine ⟨?_, ?_⟩
              · show Function.update stk.etaNew ⟨k, hk⟩ _ r = (levels r).Eta
                rw [Function.update_noteq (hneOf r hr)]
                exact (ihU r (by omega)).1
              · show Function.update stk.lran ⟨k, hk⟩ _ r = lranOf (levels r) (levels r).Eta
                rw [Function.update_noteq (hneOf r hr)]
                exact (ihU r (by omega)).2
            · by_cases hrk : r = ⟨k, hk⟩
              · subst hrk
                refine ⟨fun _ => ?_, fun hnc2 => absurd hc0 hnc2⟩
                show Function.update stk.lran ⟨k, hk⟩ _ ⟨k, hk⟩ =
                  lranOf (levels ⟨k, hk⟩) (Function.update stk.etaNew ⟨k, hk⟩ _ ⟨k, hk⟩)
                rw [Function.update_same, Function.update_same]
              · have hrlt := hltOf r hr hrk
                refine ⟨fun hc => ?_, fun hc => ?_⟩
                · show Function.update stk.lran ⟨k, hk⟩ _ r = lranOf (levels r)
                    (Function.update stk.etaNew ⟨k, hk⟩ _ r)
                  rw [Function.update_noteq hrk, Function.update_noteq hrk]
                  exact (ihP r hrlt).1 hc
                · show Function.update stk.lran ⟨k, hk⟩ _ r = lranOf (levels r) (levels r).Eta
                  rw [Function.update_noteq hrk]
                  exact (ihP r hrlt).2 hc
        · rw [if_neg h1] at h
          cases h
          have hnc : ¬((levels ⟨k, hk⟩).sDim = 0 ∧ 0 < (levels ⟨k, hk⟩).nf) := by
            intro hcon
            omega
          refine ⟨fun r hr => ?_, fun r hr => ?_⟩
          · refine ⟨?_, (ihU r (by omega)).2⟩
            show Function.update stk.etaNew ⟨k, hk⟩ _ r = (levels r).Eta
            rw [Function.update_noteq (hneOf r hr)]
            exact (ihU r (by omega)).1
          · by_cases hrk : r = ⟨k, hk⟩
            · refine ⟨fun hc => absurd (hrk ▸ hc) hnc, fun _ => ?_⟩
              show stk.lran r = lranOf (levels r) (levels r).Eta
              exact (ihU r (by rw [hrk, hkv])).2
            · have hrlt := hltOf r hr hrk
              refine ⟨fun hc => ?_, fun hc => (ihP r hrlt).2 hc⟩
              show stk.lran r = lranOf (levels r)
                (Function.update stk.etaNew ⟨k, hk⟩ _ r)
              rw [Function.update_noteq hrk]
              exact (ihP r hrlt).1 hc

/-- If the whole sweep succeeds, every prefix of it succeeds. -/
theorem updateEta_stateAt_ok (Z : Fin ny → Fin ns → ℚ) (Beta : Fin nc → Fin ns → ℚ)
    (sigma : Fin ns → ℚ) (X : Fin ny → Fin nc → ℚ)
    (levels : Fin nr → RLevel ny ns) (noise : Fin nr → ℕ → ℚ) (sqrtQ : ℚ → ℚ)
    (etaN : (r : Fin nr) → Fin (levels r).npr → Fin (levels r).nf → ℚ)
    (hfin : updateEta Z Beta sigma X levels noise sqrtQ = .ok etaN) (k : ℕ) :
    ∃ st, etaStateAt Z sigma (etaLFix X Beta) levels noise sqrtQ k = .ok st := by
  unfold updateEta at hfin
  rw [(List.take_append_drop k (List.finRange nr)).symm, etaLoop_append] at hfin
  cases hpre : etaLoop Z sigma (etaLFix X Beta) levels noise sqrtQ
      ((List.finRange nr).take k) (etaInit levels) with
  | error e =>
    rw [hpre] at hfin
    cases hfin
  | ok st =>
    exact ⟨st, hpre⟩

/-- The value the sweep assigns at level `r` is produced by one `etaStep`
from the state the sweep had just before level `r`; later levels do not
change it. -/
theorem updateEta_level_step (Z : Fin ny → Fin ns → ℚ) (Beta : Fin nc → Fin ns → ℚ)
    (sigma : Fin ns → ℚ) (X : Fin ny → Fin nc → ℚ)
    (levels : Fin nr → RLevel ny ns) (noise : Fin nr → ℕ → ℚ) (sqrtQ : ℚ → ℚ)
    (etaN : (r : Fin nr) → Fin (levels r).npr → Fin (levels r).nf → ℚ)
    (hfin : updateEta Z Beta sigma X levels noise sqrtQ = .ok etaN)
    (r : Fin nr) (st_r : EtaState ny ns levels)
    (hst : etaStateAt Z sigma (etaLFix X Beta) levels noise sqrtQ (r : ℕ) = .ok st_r) :
    ∃ stMid, etaStep Z sigma (etaLFix X Beta) levels noise sqrtQ st_r r = .ok stMid ∧
      etaN r = stMid.etaNew r := by
  have hrlen : (r : ℕ) < (List.finRange nr).length := by
    rw [List.length_finRange]; exact r.isLt
  have hdrop : (List.finRange nr).drop (r : ℕ) =
      r :: (List.finRange nr).drop ((r : ℕ) + 1) := by
    rw [List.drop_eq_getElem_cons hrlen]
    congr 1
    rw [List.getElem_finRange]
    exact Fin.ext rfl
  unfold updateEta at hfin
  rw [(List.take_append_drop (r : ℕ) (List.finRange nr)).symm, etaLoop_append] at hfin
  unfold etaStateAt at hst
  rw [hst, hdrop] at hfin
  replace hfin : (etaLoop Z sigma (etaLFix X Beta) levels noise sqrtQ
      (r :: (List.finRange nr).drop ((r : ℕ) + 1)) st_r).map EtaState.etaNew =
      .ok etaN := hfin
  unfold etaLoop at hfin
  cases hstep : etaStep Z sigma (etaLFix X Beta) levels noise sqrtQ st_r r with
  | error e =>
    rw [hstep] at hfin
    cases hfin
  | ok stMid =>
    rw [hstep] at hfin
    replace hfin : (etaLoop Z sigma (etaLFix X Beta) levels noise sqrtQ
        ((List.finRange nr).drop ((r : ℕ) + 1)) stMid).map EtaState.etaNew =
        .ok etaN := hfin
    refine ⟨stMid, rfl, ?_⟩
    cases hF : etaLoop Z sigma (etaLFix X Beta) levels noise sqrtQ
        ((List.finRange nr).drop ((r : ℕ) + 1)) stMid with
    | error e =>
      rw [hF] at hfin
      cases hfin
    | ok stF =>
      rw [hF] at hfin
      replace hfin : (Except.ok stF.etaNew : Except String _) = .ok etaN := hfin
      cases hfin
      have hframe := etaLoop_ge_frame Z sigma (etaLFix X Beta) levels noise sqrtQ
        ((List.finRange nr).drop ((r : ℕ) + 1)) stMid stF ((r : ℕ) + 1)
        (fun r3 h3 => mem_finRange_drop_ge _ r3 h3) hF r (by omega)
      exact hframe.1

/-- The only error the sweep step can raise is `NotImplementedError`. -/
theorem etaStep_error_eq (Z : Fin ny → Fin ns → ℚ) (sigma : Fin ns → ℚ)
    (LFix : Fin ny → Fin ns → ℚ) (levels : Fin nr → RLevel ny ns)
    (noise : Fin nr → ℕ → ℚ) (sqrtQ : ℚ → ℚ)
    (st : EtaState ny ns levels) (r : Fin nr) (e : String)
    (h : etaStep Z sigma LFix levels noise sqrtQ st r = .error e) :
    e = "NotImplementedError" := by
  rw [etaStep_eq] at h
  by_cases h1 : 0 < (levels r).nf
  · rw [if_pos h1] at h
    by_cases h2 : 0 < (levels r).sDim
    · rw [if_pos h2] at h
      by_cases h3 : (levels r).spatialMethod = "NNGP"
      · rw [if_pos h3] at h; cases h
      · rw [if_neg h3] at h
        by_cases h4 : (levels r).spatialMethod = "GPP"
        · rw [if_pos h4] at h
          cases h
          rfl
        · rw [if_neg h4] at h; cases h
    · rw [if_neg h2] at h; cases h
  · rw [if_neg h1] at h; cases h

/-- The only error the sweep can raise is `NotImplementedError`. -/
theorem etaLoop_error_eq (Z : Fin ny → Fin ns → ℚ) (sigma : Fin ns → ℚ)
    (LFix : Fin ny → Fin ns → ℚ) (levels : Fin nr → RLevel ny ns)
    (noise : Fin nr → ℕ → ℚ) (sqrtQ : ℚ → ℚ) :
    ∀ (l : List (Fin nr)) (st : EtaState ny ns levels) (e : String),
      etaLoop Z sigma LFix levels noise sqrtQ l st = .error e →
      e = "NotImplementedError" := by
  intro l
  induction l with
  | nil => intro st e h; cases h
  | cons r rs ih =>
    intro st e h
    unfold etaLoop at h
    cases hstep : etaStep Z sigma LFix levels noise sqrtQ st r with
    | error e2 =>
      rw [hstep] at h
      cases h
      exact etaStep_error_eq Z sigma LFix levels noise sqrtQ st r _ hstep
    | ok st1 =>
      rw [hstep] at h
      exact ih st1 e h

/-- Backward substitution at the last index: one division. -/
theorem bwdSolve_last (n : ℕ) (L : Fin (n+1) → Fin (n+1) → ℚ) (b : Fin (n+1) → ℚ) :
    bwdSolve (n+1) L b (Fin.last n) =
      b (Fin.last n) / L (Fin.last n) (Fin.last n) := by
  show Fin.lastCases (motive := fun _ => ℚ)
      (b (Fin.last n) / L (Fin.last n) (Fin.last n))
      (bwdSolve n (fun i j => L i.castSucc j.castSucc)
        (fun i => b i.castSucc - L (Fin.last n) i.castSucc *
          (b (Fin.last n) / L (Fin.last n) (Fin.last n))))
      (Fin.last n) = _
  rw [Fin.lastCases_last]

/-- Backward substitution on a 1x1 system. -/
theorem bwdSolve_one (L : Fin (1*1) → Fin (1*1) → ℚ) (b : Fin (1*1) → ℚ) :
    bwdSolve (1*1) L b (flatIdx (0 : Fin 1) (0 : Fin 1)) =
      b (flatIdx 0 0) / L (flatIdx 0 0) (flatIdx 0 0) := by
  have h : (flatIdx (0 : Fin 1) (0 : Fin 1) : Fin (1*1)) = Fin.last 0 := rfl
  rw [h]
  exact bwdSolve_last 0 L b

/-- The full-GP factor sampler on one unit and one factor in closed form:
`(mu0/sqrt(iW + lam) + eps)/sqrt(iW + lam)`. -/
theorem modelSpatialFull_one (lam : Fin 1 → Fin 1 → Fin 1 → ℚ) (m0 : Fin 1 → Fin 1 → ℚ)
    (Alpha : Fin 1 → ℕ) (iWg : ℕ → Fin 1 → Fin 1 → ℚ) (sq : ℚ → ℚ) (eps : ℕ → ℚ) :
    modelSpatialFull 1 1 lam m0 Alpha iWg sq eps 0 0 =
      (m0 0 0 / sq (iWg (Alpha 0) 0 0 + lam 0 0 0) + eps 0) /
        sq (iWg (Alpha 0) 0 0 + lam 0 0 0) := by
  show bwdSolve (1*1)
      (cholesky sq (1*1) (fun x y =>
        (if flatRow x = flatRow y then iWg (Alpha (flatRow x)) (flatCol x) (flatCol y) else 0) +
        (if flatCol x = flatCol y then lam (flatCol x) (flatRow x) (flatRow y) else 0)))
      (fun x => fwdSolve (1*1)
        (cholesky sq (1*1) (fun x2 y2 =>
          (if flatRow x2 = flatRow y2 then iWg (Alpha (flatRow x2)) (flatCol x2) (flatCol y2) else 0) +
          (if flatCol x2 = flatCol y2 then lam (flatCol x2) (flatRow x2) (flatRow y2) else 0)))
        (fun x2 => m0 (flatCol x2) (flatRow x2)) x + eps (x : ℕ))
      (flatIdx 0 0) = _
  rw [bwdSolve_one]
  rfl

/-- At the `exC2levels` instance, the sweep's output at level 0 is the
full-GP draw from the initial residual. -/
theorem exC2_fresh_draw_eq :
    updateEtaOr exC2Z exC2Beta exC2sigma exC2X exC2levels exC2noise exC2sqrt 0
    = modelSpatialFull 1 1
      (lamInvSigLamOf (etaID exC2sigma) (exC2levels 0))
      (mu0vOf (etaID exC2sigma)
        (residS exC2Z (etaLFix exC2X exC2Beta) (etaInit exC2levels).lran 0)
        (exC2levels 0))
      (exC2levels 0).Alpha (exC2levels 0).iWg exC2sqrt (exC2noise 0) := rfl

/-- The precision contribution of level 0 of the `exC2levels` instance. -/
theorem exC2_lam_val : lamInvSigLamOf (etaID exC2sigma) (exC2levels 0)
    (0 : Fin 1) (0 : Fin 1) (0 : Fin 1) = 1 := by
  show (∑ i : Fin 1, if (exC2levels 0).piCol i = (0 : Fin 1) then
      ∑ j : Fin 1, (exC2levels 0).Lambda (0 : Fin 1) j * etaID exC2sigma i j *
        (exC2levels 0).Lambda (0 : Fin 1) j else 0) = 1
  have hpi : ∀ i : Fin 1, (exC2levels 0).piCol i = (0 : Fin 1) := fun _ => rfl
  have hL : ∀ j : Fin 1, (exC2levels 0).Lambda (0 : Fin 1) j = 1 := fun _ => rfl
  rw [Fin.sum_univ_one, if_pos (hpi 0), Fin.sum_univ_one, hL]
  norm_num [etaID, exC2sigma]

/-- The residual seen by level 0 of the `exC2levels` instance. -/
theorem exC2_S0_val :
    residS exC2Z (etaLFix exC2X exC2Beta) (etaInit exC2levels).lran 0 0 0 = 1 := by
  have h1 : (etaInit exC2levels).lran 1 0 0 = 0 := by
    show (∑ h : Fin (exC2levels 1).nf,
      (exC2levels 1).Eta ((exC2levels 1).piCol 0) h * (exC2levels 1).Lambda h 0) = 0
    have hEta1 : ∀ (p : Fin (exC2levels 1).npr) (h : Fin (exC2levels 1).nf),
        (exC2levels 1).Eta p h = 0 := fun _ _ => rfl
    simp [hEta1]
  show exC2Z 0 0 - etaLFix exC2X exC2Beta 0 0 -
      ∑ r2 : Fin 2, (if r2 = 0 then 0 else (etaInit exC2levels).lran r2 0 0) = 1
  rw [Fin.sum_univ_two, if_pos (rfl : (0 : Fin 2) = 0),
    if_neg (by decide : ¬ (1 : Fin 2) = 0), h1]
  norm_num [exC2Z, etaLFix, exC2X, exC2Beta, Fin.sum_univ_one]

/-- The mean contribution of level 0 of the `exC2levels` instance. -/
theorem exC2_mu0_val : mu0vOf (etaID exC2sigma)
    (residS exC2Z (etaLFix exC2X exC2Beta) (etaInit exC2levels).lran 0)
    (exC2levels 0) (0 : Fin 1) (0 : Fin 1) = 1 := by
  show (∑ i : Fin 1, if (exC2levels 0).piCol i = (0 : Fin 1) then
      ∑ j : Fin 1, etaID exC2sigma i j *
        residS exC2Z (etaLFix exC2X exC2Beta) (etaInit exC2levels).lran 0 i j *
        (exC2levels 0).Lambda (0 : Fin 1) j else 0) = 1
  have hpi : ∀ i : Fin 1, (exC2levels 0).piCol i = (0 : Fin 1) := fun _ => rfl
  have hL : ∀ j : Fin 1, (exC2levels 0).Lambda (0 : Fin 1) j = 1 := fun _ => rfl
  rw [Fin.sum_univ_one, if_pos (hpi 0), Fin.sum_univ_one, hL, exC2_S0_val]
  norm_num [etaID, exC2sigma]

/-- The fresh level-0 draw of the `exC2levels` instance evaluates to 2. -/
theorem exC2_fresh_val :
    updateEtaOr exC2Z exC2Beta exC2sigma exC2X exC2levels exC2noise exC2sqrt 0
      (0 : Fin 1) (0 : Fin 1) = 2 := by
  rw [exC2_fresh_draw_eq, modelSpatialFull_one, exC2_lam_val, exC2_mu0_val]
  have hW : (exC2levels 0).iWg ((exC2levels 0).Alpha (0 : Fin 1))
      (0 : Fin 1) (0 : Fin 1) = 0 := rfl
  have hN : exC2noise 0 0 = 1 := rfl
  rw [hW, hN]
  norm_num [exC2sqrt]

/-- Unit-expansion through level 0 of the `exC2levels` instance is the
identity on the single score. -/
theorem exC2_lran0_eval (E : Fin 1 → Fin 1 → ℚ) :
    lranOf (exC2levels 0) E 0 0 = E 0 0 := by
  show (∑ h : Fin 1, E 0 h * 1) = E 0 0
  rw [Fin.sum_univ_one, mul_one]

/-- The residual the code actually uses for level 1 of the `exC2levels`
instance: level 0's spatial draw is NOT reflected. -/
theorem exC2_levelS_val :
    residS exC2Z (etaLFix exC2X exC2Beta) exC2st1.lran 1 0 0 = 1 := by
  have hl : exC2st1.lran = (etaInit exC2levels).lran := rfl
  have h0 : (etaInit exC2levels).lran 0 0 0 = 0 := by
    show lranOf (exC2levels 0) (exC2levels 0).Eta 0 0 = 0
    rw [exC2_lran0_eval]
    exact rfl
  rw [hl]
  show exC2Z 0 0 - etaLFix exC2X exC2Beta 0 0 -
      ∑ r2 : Fin 2, (if r2 = 1 then 0 else (etaInit exC2levels).lran r2 0 0) = 1
  rw [Fin.sum_univ_two, if_neg (by decide : ¬ (0 : Fin 2) = 1),
    if_pos (rfl : (1 : Fin 2) = 1), h0]
  norm_num [exC2Z, etaLFix, exC2X, exC2Beta, Fin.sum_univ_one]

/-- The residual the claim prescribes for level 1 of the `exC2levels`
instance: level 0's fresh draw IS reflected. -/
theorem exC2_claimS_val :
    claimResidS exC2Z (etaLFix exC2X exC2Beta) exC2levels
      (updateEtaOr exC2Z exC2Beta exC2sigma exC2X exC2levels exC2noise exC2sqrt) 1 0 0 = -1 := by
  show exC2Z 0 0 - etaLFix exC2X exC2Beta 0 0 -
      ∑ r2 : Fin 2, (if r2 = 1 then 0
        else if r2 < 1 then
          lranOf (exC2levels r2)
            (updateEtaOr exC2Z exC2Beta exC2sigma exC2X exC2levels exC2noise exC2sqrt r2) 0 0
        else lranOf (exC2levels r2) (exC2levels r2).Eta 0 0) = -1
  rw [Fin.sum_univ_two, if_neg (by decide : ¬ (0 : Fin 2) = 1),
    if_pos (by decide : (0 : Fin 2) < 1), if_pos (rfl : (1 : Fin 2) = 1)]
  rw [exC2_lran0_eval, exC2_fresh_val]
  norm_num [exC2Z, etaLFix, exC2X, exC2Beta, Fin.sum_univ_one]

/-- C2 amended: within one iteration's latent-factor sweep, the residual S
used for level `k` equals Z minus the fixed-effect contribution minus the
unit-expanded contributions of all other levels, where the contribution of
an earlier level in the same sweep reflects that level's freshly drawn Eta
exactly when that level is NON-SPATIAL with a positive factor count; for
spatial earlier levels (full GP, NNGP) the start-of-iteration contribution
is used - the cached contribution is refreshed only in the non-spatial
branch (updateEta.py line 65), contrary to the claim's "for all three
spatial regimes".  The freshly drawn values coincide with the sweep's final
output (second conjunct). -/
theorem C2_residual_amended (Z : Fin ny → Fin ns → ℚ) (Beta : Fin nc → Fin ns → ℚ)
    (sigma : Fin ns → ℚ) (X : Fin ny → Fin nc → ℚ)
    (levels : Fin nr → RLevel ny ns) (noise : Fin nr → ℕ → ℚ) (sqrtQ : ℚ → ℚ)
    (k : Fin nr) (st_k : EtaState ny ns levels)
    (hst : etaStateAt Z sigma (etaLFix X Beta) levels noise sqrtQ (k : ℕ) = .ok st_k) :
    (∀ i j, residS Z (etaLFix X Beta) st_k.lran k i j =
      Z i j - etaLFix X Beta i j - ∑ r2, (if r2 = k then 0
        else if (r2 : ℕ) < (k : ℕ) ∧ (levels r2).sDim = 0 ∧ 0 < (levels r2).nf
        then lranOf (levels r2) (st_k.etaNew r2) i j
        else lranOf (levels r2) (levels r2).Eta i j)) ∧
    (∀ etaN, updateEta Z Beta sigma X levels noise sqrtQ = .ok etaN →
      ∀ r2 : Fin nr, (r2 : ℕ) < (k : ℕ) → st_k.etaNew r2 = etaN r2) := by
  constructor
  · intro i j
    unfold residS
    congr 1
    apply Finset.sum_congr rfl
    intro r2 _
    by_cases he : r2 = k
    · rw [if_pos he, if_pos he]
    · rw [if_neg he, if_neg he]
      obtain ⟨ihU, ihP⟩ := etaStateAt_spec Z sigma (etaLFix X Beta) levels noise
        sqrtQ (k : ℕ) st_k hst
      by_cases hlt : (r2 : ℕ) < (k : ℕ)
      · by_cases hc : (levels r2).sDim = 0 ∧ 0 < (levels r2).nf
        · rw [if_pos ⟨hlt, hc.1, hc.2⟩, (ihP r2 hlt).1 hc]
        · rw [if_neg (by tauto), (ihP r2 hlt).2 hc]
      · rw [if_neg (by tauto), (ihU r2 (by omega)).2]
  · intro etaN hfin r2 hlt
    unfold updateEta at hfin
    rw [(List.take_append_drop (k : ℕ) (List.finRange nr)).symm, etaLoop_append] at hfin
    unfold etaStateAt at hst
    rw [hst] at hfin
    replace hfin : (etaLoop Z sigma (etaLFix X Beta) levels noise sqrtQ
        ((List.finRange nr).drop (k : ℕ)) st_k).map EtaState.etaNew = .ok etaN := hfin
    cases hF : etaLoop Z sigma (etaLFix X Beta) levels noise sqrtQ
        ((List.finRange nr).drop (k : ℕ)) st_k with
    | error e =>
      rw [hF] at hfin
      cases hfin
    | ok stF =>
      rw [hF] at hfin
      replace hfin : (Except.ok stF.etaNew : Except String _) = .ok etaN := hfin
      cases hfin
      have hframe := etaLoop_ge_frame Z sigma (etaLFix X Beta) levels noise sqrtQ
        ((List.finRange nr).drop (k : ℕ)) st_k stF (k : ℕ)
        (fun r3 h3 => mem_finRange_drop_ge _ r3 h3) hF r2 hlt
      exact hframe.1.symm

/-- Witness for the amended C2 at the two-level instance (level 0 spatial
full-GP, level 1 non-spatial): the sweep state before level 1 exists and
satisfies the residual characterization. -/
theorem C2_residual_amended_witness :
    (etaStateAt exC2Z exC2sigma (etaLFix exC2X exC2Beta) exC2levels exC2noise
        exC2sqrt 1 = .ok exC2st1) ∧
    ((∀ i j, residS exC2Z (etaLFix exC2X exC2Beta) exC2st1.lran 1 i j =
        exC2Z i j - etaLFix exC2X exC2Beta i j - ∑ r2 : Fin 2, (if r2 = 1 then 0
          else if (r2 : ℕ) < 1 ∧ (exC2levels r2).sDim = 0 ∧ 0 < (exC2levels r2).nf
          then lranOf (exC2levels r2) (exC2st1.etaNew r2) i j
          else lranOf (exC2levels r2) (exC2levels r2).Eta i j)) ∧
      (∀ etaN, updateEta exC2Z exC2Beta exC2sigma exC2X exC2levels exC2noise
          exC2sqrt = .ok etaN →
        ∀ r2 : Fin 2, (r2 : ℕ) < 1 → exC2st1.etaNew r2 = etaN r2)) :=
  ⟨rfl, C2_residual_amended exC2Z exC2Beta exC2sigma exC2X exC2levels exC2noise
    exC2sqrt 1 exC2st1 rfl⟩

/-- C2 counterexample: with a spatial (full GP) level 0 and a non-spatial
level 1, the residual the code uses for level 1 is computed from level 0's
START-OF-ITERATION contribution (value 1), while the claim's "latest draws
of earlier levels" residual reflects level 0's fresh draw (value -1) - the
claim's "for all three spatial regimes" fails for spatial earlier levels. -/
theorem C2_residual_counterexample :
    0 < (exC2levels 0).sDim ∧ 0 < (exC2levels 0).nf ∧
    updateEta exC2Z exC2Beta exC2sigma exC2X exC2levels exC2noise exC2sqrt =
      .ok (updateEtaOr exC2Z exC2Beta exC2sigma exC2X exC2levels exC2noise exC2sqrt) ∧
    etaStateAt exC2Z exC2sigma (etaLFix exC2X exC2Beta) exC2levels exC2noise exC2sqrt 1 =
      .ok exC2st1 ∧
    residS exC2Z (etaLFix exC2X exC2Beta) exC2st1.lran 1 0 0 = 1 ∧
    claimResidS exC2Z (etaLFix exC2X exC2Beta) exC2levels
      (updateEtaOr exC2Z exC2Beta exC2sigma exC2X exC2levels exC2noise exC2sqrt) 1 0 0 = -1 ∧
    (1 : ℚ) ≠ -1 :=
  ⟨by decide, by decide, rfl, rfl, exC2_levelS_val, exC2_claimS_val, by norm_num⟩

/-- C8 amended: whenever the latent-factor sweep reaches a level whose
spatial method is the predictive-process variant ("GPP") with a positive
factor count, it raises `NotImplementedError` (never a silent fallback to
another regime) - but the failure occurs inside the per-iteration update,
not at configuration time, and a GPP level with zero factors is skipped
without any error (see the counterexample). -/
theorem C8_gpp_raises_amended (Z : Fin ny → Fin ns → ℚ) (Beta : Fin nc → Fin ns → ℚ)
    (sigma : Fin ns → ℚ) (X : Fin ny → Fin nc → ℚ)
    (levels : Fin nr → RLevel ny ns) (noise : Fin nr → ℕ → ℚ) (sqrtQ : ℚ → ℚ)
    (r : Fin nr) (hm : (levels r).spatialMethod = "GPP")
    (hsd : 0 < (levels r).sDim) (hnf : 0 < (levels r).nf) :
    updateEta Z Beta sigma X levels noise sqrtQ = .error "NotImplementedError" := by
  cases hres : updateEta Z Beta sigma X levels noise sqrtQ with
  | ok etaN =>
    exfalso
    obtain ⟨st_r, hst⟩ := updateEta_stateAt_ok Z Beta sigma X levels noise sqrtQ
      etaN hres (r : ℕ)
    obtain ⟨stMid, hstep, _⟩ := updateEta_level_step Z Beta sigma X levels noise
      sqrtQ etaN hres r st_r hst
    rw [etaStep_eq, if_pos hnf, if_pos hsd,
      if_neg (by rw [hm]; decide), if_pos hm] at hstep
    cases hstep
  | error e =>
    have he : e = "NotImplementedError" := by
      unfold updateEta at hres
      cases hL : etaLoop Z sigma (etaLFix X Beta) levels noise sqrtQ
          (List.finRange nr) (etaInit levels) with
      | ok st2 =>
        rw [hL] at hres
        cases hres
      | error e2 =>
        rw [hL] at hres
        replace hres : (Except.error e2 : Except String _) = .error e := hres
        cases hres
        exact etaLoop_error_eq Z sigma (etaLFix X Beta) levels noise sqrtQ _ _ _ hL
    rw [he]

/-- Witness for the amended C8: a single GPP level with one factor makes
the sweep raise `NotImplementedError`. -/
theorem C8_gpp_raises_amended_witness :
    (exC8levelsPos 0).spatialMethod = "GPP" ∧ 0 < (exC8levelsPos 0).sDim ∧
    0 < (exC8levelsPos 0).nf ∧
    updateEta exC2Z exC2Beta exC2sigma exC2X exC8levelsPos (fun _ _ => 0) exC2sqrt =
      .error "NotImplementedError" :=
  ⟨rfl, by decide, by decide,
    C8_gpp_raises_amended exC2Z exC2Beta exC2sigma exC2X exC8levelsPos
      (fun _ _ => 0) exC2sqrt 0 rfl (by decide) (by decide)⟩

/-- C8 counterexample: a GPP level with zero current factors does NOT make
the run fail - the sweep succeeds and leaves the level's scores unchanged -
and no failure happens at configuration time: the error of the positive
case above is raised inside the per-iteration update.  This refutes "fails
fast ... at configuration time ... for every run in which some level's
spatial method is GPP". -/
theorem C8_gpp_counterexample :
    (exC8levels 0).spatialMethod = "GPP" ∧ (exC8levels 0).nf = 0 ∧
    updateEta exC2Z exC2Beta exC2sigma exC2X exC8levels (fun _ _ => 0) exC2sqrt =
      .ok (fun r => (exC8levels r).Eta) := by
  refine ⟨rfl, rfl, ?_⟩
  have h : updateEta exC2Z exC2Beta exC2sigma exC2X exC8levels (fun _ _ => 0) exC2sqrt =
      .ok (Function.update (fun r => (exC8levels r).Eta) 0 ((exC8levels 0).Eta)) := rfl
  rw [h]
  congr 1
  funext r
  have hr : r = 0 := Subsingleton.elim r 0
  rw [hr, Function.update_same]

/-- C9: for every level `r` whose current factor count is zero, one
invocation of the latent-factor sampler leaves `Eta[r]` unchanged (the
returned value for that level is the input value), while a level with
positive factor count is still updated: its returned value is the fresh
draw of its spatial regime's sampler (non-spatial, NNGP, or full GP) from
the sweep state at that level. -/
theorem C9_zero_factor_frame (Z : Fin ny → Fin ns → ℚ) (Beta : Fin nc → Fin ns → ℚ)
    (sigma : Fin ns → ℚ) (X : Fin ny → Fin nc → ℚ)
    (levels : Fin nr → RLevel ny ns) (noise : Fin nr → ℕ → ℚ) (sqrtQ : ℚ → ℚ)
    (etaN : (r : Fin nr) → Fin (levels r).npr → Fin (levels r).nf → ℚ)
    (hfin : updateEta Z Beta sigma X levels noise sqrtQ = .ok etaN) :
    (∀ r, (levels r).nf = 0 → etaN r = (levels r).Eta) ∧
    (∀ (r : Fin nr) (st_r : EtaState ny ns levels),
      etaStateAt Z sigma (etaLFix X Beta) levels noise sqrtQ (r : ℕ) = .ok st_r →
      0 < (levels r).nf →
      ((levels r).sDim = 0 →
        etaN r = modelNonSpatial (levels r).npr (levels r).nf
          (lamInvSigLamOf (etaID sigma) (levels r))
          (mu0vOf (etaID sigma) (residS Z (etaLFix X Beta) st_r.lran r) (levels r))
          sqrtQ (noise r)) ∧
      (0 < (levels r).sDim → (levels r).spatialMethod = "NNGP" →
        etaN r = modelSpatialNNGP (levels r).npr (levels r).nf
          (lamInvSigLamOf (etaID sigma) (levels r))
          (mu0vOf (etaID sigma) (residS Z (etaLFix X Beta) st_r.lran r) (levels r))
          (levels r).Alpha (levels r).piCol (levels r).iWg
          (residS Z (etaLFix X Beta) st_r.lran r) (fun j => sigma j ^ (-2 : ℤ))
          sqrtQ (noise r)) ∧
      (0 < (levels r).sDim → (levels r).spatialMethod ≠ "NNGP" →
        (levels r).spatialMethod ≠ "GPP" →
        etaN r = modelSpatialFull (levels r).npr (levels r).nf
          (lamInvSigLamOf (etaID sigma) (levels r))
          (mu0vOf (etaID sigma) (residS Z (etaLFix X Beta) st_r.lran r) (levels r))
          (levels r).Alpha (levels r).iWg sqrtQ (noise r))) := by
  constructor
  · intro r hnf0
    obtain ⟨st_r, hst⟩ := updateEta_stateAt_ok Z Beta sigma X levels noise sqrtQ
      etaN hfin (r : ℕ)
    obtain ⟨stMid, hstep, hval⟩ := updateEta_level_step Z Beta sigma X levels
      noise sqrtQ etaN hfin r st_r hst
    rw [etaStep_eq, if_neg (by omega : ¬ 0 < (levels r).nf)] at hstep
    cases hstep
    rw [hval]
    show Function.update st_r.etaNew r (levels r).Eta r = (levels r).Eta
    rw [Function.update_same]
  · intro r st_r hst hnf
    obtain ⟨stMid, hstep, hval⟩ := updateEta_level_step Z Beta sigma X levels
      noise sqrtQ etaN hfin r st_r hst
    rw [etaStep_eq, if_pos hnf] at hstep
    refine ⟨?_, ?_, ?_⟩
    · intro hsd0
      rw [if_neg (by omega : ¬ 0 < (levels r).sDim)] at hstep
      cases hstep
      rw [hval]
      show Function.update st_r.etaNew r _ r = _
      rw [Function.update_same]
    · intro hsd hmN
      rw [if_pos hsd, if_pos hmN] at hstep
      cases hstep
      rw [hval]
      show Function.update st_r.etaNew r _ r = _
      rw [Function.update_same]
    · intro hsd hm1 hm2
      rw [if_pos hsd, if_neg hm1, if_neg hm2] at hstep
      cases hstep
      rw [hval]
      show Function.update st_r.etaNew r _ r = _
      rw [Function.update_same]

/-- Witness for C9 at the two-level instance: level 0 has zero factors and
keeps its input scores; level 1 has one factor and is drawn afresh. -/
theorem C9_zero_factor_frame_witness :
    (updateEta exC2Z exC2Beta exC2sigma exC2X exC9levels exC2noise exC2sqrt =
      .ok (updateEtaOr exC2Z exC2Beta exC2sigma exC2X exC9levels exC2noise exC2sqrt)) ∧
    ((∀ r, (exC9levels r).nf = 0 →
      updateEtaOr exC2Z exC2Beta exC2sigma exC2X exC9levels exC2noise exC2sqrt r =
        (exC9levels r).Eta) ∧
    (∀ (r : Fin 2) (st_r : EtaState 1 1 exC9levels),
      etaStateAt exC2Z exC2sigma (etaLFix exC2X exC2Beta) exC9levels exC2noise
        exC2sqrt (r : ℕ) = .ok st_r →
      0 < (exC9levels r).nf →
      ((exC9levels r).sDim = 0 →
        updateEtaOr exC2Z exC2Beta exC2sigma exC2X exC9levels exC2noise exC2sqrt r =
          modelNonSpatial (exC9levels r).npr (exC9levels r).nf
          (lamInvSigLamOf (etaID exC2sigma) (exC9levels r))
          (mu0vOf (etaID exC2sigma)
            (residS exC2Z (etaLFix exC2X exC2Beta) st_r.lran r) (exC9levels r))
          exC2sqrt (exC2noise r)) ∧
      (0 < (exC9levels r).sDim → (exC9levels r).spatialMethod = "NNGP" →
        updateEtaOr exC2Z exC2Beta exC2sigma exC2X exC9levels exC2noise exC2sqrt r =
          modelSpatialNNGP (exC9levels r).npr (exC9levels r).nf
          (lamInvSigLamOf (etaID exC2sigma) (exC9levels r))
          (mu0vOf (etaID exC2sigma)
            (residS exC2Z (etaLFix exC2X exC2Beta) st_r.lran r) (exC9levels r))
          (exC9levels r).Alpha (exC9levels r).piCol (exC9levels r).iWg
          (residS exC2Z (etaLFix exC2X exC2Beta) st_r.lran r)
          (fun j => exC2sigma j ^ (-2 : ℤ)) exC2sqrt (exC2noise r)) ∧
      (0 < (exC9levels r).sDim → (exC9levels r).spatialMethod ≠ "NNGP" →
        (exC9levels r).spatialMethod ≠ "GPP" →
        updateEtaOr exC2Z exC2Beta exC2sigma exC2X exC9levels exC2noise exC2sqrt r =
          modelSpatialFull (exC9levels r).npr (exC9levels r).nf
          (lamInvSigLamOf (etaID exC2sigma) (exC9levels r))
          (mu0vOf (etaID exC2sigma)
            (residS exC2Z (etaLFix exC2X exC2Beta) st_r.lran r) (exC9levels r))
          (exC9levels r).Alpha (exC9levels r).iWg exC2sqrt (exC2noise r)))) :=
  ⟨rfl, C9_zero_factor_frame exC2Z exC2Beta exC2sigma exC2X exC9levels exC2noise
    exC2sqrt _ rfl⟩

/-- C3 amended: the per-unit sufficient statistics of the latent-factor
sampler are the stated scatter-sums `Λᵀ·diag(iD)·Λ` and `Λ·(iD⊙S)ᵀ`, but
with a LOCALLY RECOMPUTED precision `iD = ones * sigma**-2` (updateEta.py
line 40) - the ParameterState's per-observation `iD` field (zero at
missing observations, Poisson-mode values) is never read by this updater.
The claim's state-`iD`-based statistics coincide with the updater's exactly
when the state `iD` equals `sigma^-2` at every entry. -/
theorem C3_suffstats_amended (sigma : Fin ns → ℚ) (iDstate : Fin ny → Fin ns → ℚ)
    (hiD : ∀ i j, iDstate i j = sigma j ^ (-2 : ℤ)) (lv : RLevel ny ns) :
    claimLamInvSigLam iDstate lv = lamInvSigLamOf (etaID sigma) lv ∧
    (∀ S, claimMu0v iDstate S lv = mu0vOf (etaID sigma) S lv) ∧
    (∀ (i : Fin ny) (j : Fin ns), etaID sigma i j = sigma j ^ (-2 : ℤ)) := by
  refine ⟨?_, ?_, fun i j => rfl⟩
  · funext p h k
    simp only [claimLamInvSigLam, lamInvSigLamOf, etaID, hiD]
  · intro S
    funext p h
    simp only [claimMu0v, mu0vOf, etaID, hiD]

/-- Witness for the amended C3: with the state `iD` equal to `sigma^-2`
everywhere, the two readings of the sufficient statistics coincide. -/
theorem C3_suffstats_amended_witness :
    (∀ (i : Fin 2) (j : Fin 1), etaID exC3sigma i j = exC3sigma j ^ (-2 : ℤ)) ∧
    (claimLamInvSigLam (etaID exC3sigma) exC3lv =
        lamInvSigLamOf (etaID exC3sigma) exC3lv ∧
      (∀ S, claimMu0v (etaID exC3sigma) S exC3lv = mu0vOf (etaID exC3sigma) S exC3lv) ∧
      (∀ (i : Fin 2) (j : Fin 1), etaID exC3sigma i j = exC3sigma j ^ (-2 : ℤ))) :=
  ⟨fun i j => rfl,
    C3_suffstats_amended exC3sigma (etaID exC3sigma) (fun i j => rfl) exC3lv⟩

/-- C3 counterexample: with a ParameterState `iD` that is 0 at a missing
observation (entry (1,0)) while `sigma = 1`, the claim's per-unit precision
contribution aggregated from the state `iD` is 1, but the updater's -
aggregated from the locally recomputed `iD = sigma^-2 = 1` at EVERY entry,
updateEta.py line 40 - is 2: the state's per-entry values (0 at missing
observations) are not what the updater uses. -/
theorem C3_suffstats_counterexample :
    exC3iD 1 0 = 0 ∧ etaID exC3sigma (1 : Fin 2) 0 = 1 ∧
    lamInvSigLamOf (etaID exC3sigma) exC3lv (0 : Fin 1) (0 : Fin 1) (0 : Fin 1) = 2 ∧
    claimLamInvSigLam exC3iD exC3lv (0 : Fin 1) (0 : Fin 1) (0 : Fin 1) = 1 ∧
    (2 : ℚ) ≠ 1 := by
  refine ⟨rfl, by norm_num [etaID, exC3sigma], ?_, ?_, by norm_num⟩
  · have hpi : ∀ i : Fin 2, exC3lv.piCol i = (0 : Fin 1) := fun _ => rfl
    have hL : ∀ j : Fin 1, exC3lv.Lambda (0 : Fin 1) j = 1 := fun _ => rfl
    norm_num [lamInvSigLamOf, etaID, exC3sigma, hpi, hL, Fin.sum_univ_two, Fin.sum_univ_one]
  · have hpi : ∀ i : Fin 2, exC3lv.piCol i = (0 : Fin 1) := fun _ => rfl
    have hL : ∀ j : Fin 1, exC3lv.Lambda (0 : Fin 1) j = 1 := fun _ => rfl
    norm_num [claimLamInvSigLam, lamInvSigLamOf, exC3iD, hpi, hL, Fin.sum_univ_two,
      Fin.sum_univ_one]

end EtaClaimTheorems

end Hmsc
